import Mathlib

/-!
Verification of the x265 transform/quantization core (`source/common/quant.cpp`)
and the intra DC predictor (`source/common/intrapred.cpp`) against its
natural-language specification.

The development is a shallow embedding: machine integers of the C++ source
become `Int`/`Nat` (all the values handled by the modelled routines fit their
C types, so ordinary integer arithmetic is exact), coefficient buffers become
`List Int` indexed by block position, and an arithmetic right shift of a
(two's-complement) signed value becomes floor division by a power of two,
which is what `/` on `Int` is for a positive divisor.

Primitives that live behind the `primitives` dispatch table (scalar quant,
`cvt16to32_cnt`, the inverse-DCT butterflies) are not part of the sources in
this tree; they are modelled from the specification and explicitly marked
`Modelled from the spec:` in their doc comments.  The double-valued RDOQ cost
search of `Quant::rdoQuant` is not embedded; instead its integer-exact final
phase (recount, sign re-application, cleanup, RD sign-hiding) is embedded
exactly, taking the values the floating-point search produced (`dstCoeff`,
`bestLastIdx`, `lastScanPos`, `rdFactor`, the rate side-channels) as inputs.
-/

namespace X265

/-- `Clip3(minVal, maxVal, a)` of the x265 common utilities. -/
def Clip3 (lo hi a : Int) : Int := min (max lo a) hi

/-- `MAX_INT` (32-bit `INT_MAX`), the veto cost of `Quant::signBitHidingHDQ`. -/
def MAX_INT : Int := 2147483647

/-- `MAX_INT64`, the veto cost of the RD sign-hiding pass of `Quant::rdoQuant`. -/
def MAX_INT64 : Int := 9223372036854775807

/-- `SBH_THRESHOLD` from `common.h`: minimum distance between the first and last
non-zero coefficient of a coding group for sign-data hiding to engage. -/
def SBH_THRESHOLD : Int := 4

/-- `SCAN_SET_SIZE` (= `1 << LOG2_SCAN_SET_SIZE`): coefficients per 4x4 group. -/
def SCAN_SET_SIZE : Nat := 16

/-- The internal bit depth of this build (`X265_DEPTH`), the 8-bit default. -/
def X265_DEPTH : Nat := 8

/-- `QP_BD_OFFSET = 6 * (X265_DEPTH - 8)`. -/
def QP_BD_OFFSET : Int := 6 * ((X265_DEPTH : Int) - 8)

/-- `QUANT_SHIFT` from `TComRom.h`. -/
def QUANT_SHIFT : Nat := 14

/-- `MAX_TR_DYNAMIC_RANGE - X265_DEPTH - log2TrSize`, the forward transform
scaling used by `Quant::transformNxN` (`MAX_TR_DYNAMIC_RANGE` = 15). -/
def transformShift (log2TrSize : Nat) : Nat := 15 - X265_DEPTH - log2TrSize

/-- Arithmetic right shift of a signed value: `x >> s` in C on a negative
operand rounds toward minus infinity, i.e. floor division by `2^s`. -/
def asr (x : Int) (s : Nat) : Int := x / 2 ^ s

/-- Number of non-zero entries of a coefficient buffer
(`primitives.count_nonzero` semantics). -/
def countNZ (l : List Int) : Nat := l.countP (fun x => decide (x ≠ 0))

/-- The sign re-application idiom of `Quant::rdoQuant` line 883-884:
`mask = (int32_t)m_resiDctCoeff[blkPos] >> 31; (level ^ mask) - mask`
negates `level` exactly when the DCT coefficient is negative. -/
def sgnApply (d v : Int) : Int := if d < 0 then -v else v

/-- Levels are sign-consistent with the pre-quantization DCT coefficients:
a positive level sits on a non-negative DCT coefficient and a negative level
on a negative one.  This is the state the quantizers establish and both
sign-hiding passes preserve. -/
def signOk (resiDct coeff : List Int) : Prop :=
  ∀ p : Nat, (0 < coeff.getD p 0 → 0 ≤ resiDct.getD p 0) ∧
    (coeff.getD p 0 < 0 → resiDct.getD p 0 < 0)

/-!  ## Scalar quantization (`primitives.quant`)

Modelled from the spec (§4.D), the kernel itself being behind the primitive
dispatch table: for each coefficient `absLevel = (|dct| * quantCoef + add) >>
qbits`, sign re-applied, output clamped to the signed-16 interval;
`deltaU = (|dct|*quantCoef - (absLevel<<qbits)) >> (qbits-8)`; the returned
`numSig` counts the non-zero levels. -/

/-- Modelled from the spec: the absolute level of one scalar-quantized
coefficient, `(|dct| * quantCoef + add) >> qbits`. -/
def quantLevel (qc add : Int) (qbits : Nat) (c : Int) : Int :=
  asr ((c.natAbs : Int) * qc + add) qbits

/-- Modelled from the spec: one scalar-quantized output coefficient: the
absolute level with the sign of the input re-applied, clamped to
`[-32768, 32767]`. -/
def quantOne (qc add : Int) (qbits : Nat) (c : Int) : Int :=
  Clip3 (-32768) 32767 (if c < 0 then -(quantLevel qc add qbits c) else quantLevel qc add qbits c)

/-- Modelled from the spec: the `deltaU` side channel of the scalar quantizer,
`(|dct|*quantCoef - (absLevel << qbits)) >> (qbits - 8)`. -/
def quantDeltaU (qc add : Int) (qbits : Nat) (c : Int) : Int :=
  asr ((c.natAbs : Int) * qc - quantLevel qc add qbits c * 2 ^ qbits) (qbits - 8)

/-- Modelled from the spec: the level array produced by `primitives.quant`
(per-position quantization coefficients `qcs`, i.e. the scaling list row). -/
def quantBlock (qcs : List Int) (add : Int) (qbits : Nat) (coefs : List Int) : List Int :=
  List.zipWith (fun c qc => quantOne qc add qbits c) coefs qcs

/-- Modelled from the spec: the `deltaU` array produced by `primitives.quant`. -/
def quantDeltaUs (qcs : List Int) (add : Int) (qbits : Nat) (coefs : List Int) : List Int :=
  List.zipWith (fun c qc => quantDeltaU qc add qbits c) coefs qcs

/-- Modelled from the spec: the `numSig` return of `primitives.quant` — the
number of coefficients whose absolute level is non-zero. -/
def quantNumSig (qcs : List Int) (add : Int) (qbits : Nat) (coefs : List Int) : Nat :=
  (List.zipWith (fun c qc => quantLevel qc add qbits c) coefs qcs).countP
    (fun lvl => decide (lvl ≠ 0))

/-- `qbits = QUANT_SHIFT + per + transformShift` (`Quant::transformNxN` line 394). -/
def quantQbits (per log2TrSize : Nat) : Nat := QUANT_SHIFT + per + transformShift log2TrSize

/-- `add = (I_SLICE ? 171 : 85) << (qbits - 9)` (`Quant::transformNxN` line 395). -/
def quantAdd (isISlice : Bool) (qbits : Nat) : Int :=
  (if isISlice then (171 : Int) else 85) * 2 ^ (qbits - 9)

/-!  ## The minimum-cost candidate search shared by both sign-hiding passes

`Quant::signBitHidingHDQ` (lines 252-301) and the RD sign-hiding pass of
`Quant::rdoQuant` (lines 933-990) walk the candidates of one coding group in
reverse scan order with the C locals `minCostInc, minPos, finalChange,
curCost, curChange`.  Crucially `curCost`/`curChange` persist across loop
iterations: the veto branches overwrite only `curCost`, so `curChange` can be
stale.  The fold below reproduces that exactly; the two passes differ only in
the evaluation function. -/

/-- The five C locals of the candidate search. -/
structure CandSt where
  minCostInc : Int
  minPos : Int
  finalChange : Int
  curCost : Int
  curChange : Int

/-- One iteration of the candidate loop: evaluate candidate `n` (the
evaluation may read the previous `curChange`, exactly like the stale C
variable) and keep it if strictly cheaper than the current minimum. -/
def candStep (pos : Nat → Nat) (eval : Nat → Int → Int × Int) (st : CandSt) (n : Nat) :
    CandSt :=
  let r := eval n st.curChange
  if r.1 < st.minCostInc then
    { minCostInc := r.1, minPos := (pos n : Int), finalChange := r.2,
      curCost := r.1, curChange := r.2 }
  else
    { st with curCost := r.1, curChange := r.2 }

/-- The candidate loop `for (n = start; n >= 0; --n)` with the C initial state
`minCostInc = maxC, minPos = -1, finalChange = 0, curCost = maxC,
curChange = 0`. -/
def candRun (maxC : Int) (pos : Nat → Nat) (eval : Nat → Int → Int × Int) (start : Nat) :
    CandSt :=
  ((List.range (start + 1)).reverse).foldl (candStep pos eval)
    { minCostInc := maxC, minPos := -1, finalChange := 0, curCost := maxC, curChange := 0 }

/-- Candidate evaluation of `Quant::signBitHidingHDQ` lines 256-293.  Returns
`(curCost, curChange)`; the two `MAX_INT` vetoes leave `curChange` at its
previous (stale) value, as in the source. -/
def hdqEval (coeff deltaU resiDct : List Int) (scan : List Nat) (cgStart firstNZ : Nat)
    (signbit : Int) (n : Nat) (prevChange : Int) : Int × Int :=
  let blkPos := scan.getD (n + cgStart) 0
  if coeff.getD blkPos 0 ≠ 0 then
    if 0 < deltaU.getD blkPos 0 then (-(deltaU.getD blkPos 0), 1)
    else if n = firstNZ ∧ (coeff.getD blkPos 0).natAbs = 1 then (MAX_INT, prevChange)
    else (deltaU.getD blkPos 0, -1)
  else if n < firstNZ then
    (if (if 0 ≤ resiDct.getD blkPos 0 then (0 : Int) else 1) ≠ signbit then (MAX_INT, prevChange)
     else (-(deltaU.getD blkPos 0), 1))
  else (-(deltaU.getD blkPos 0), 1)

/-- Lines 303-315 of `Quant::signBitHidingHDQ` (identical to lines 992-1003 of
`Quant::rdoQuant`): clamp guard, `numSig` bookkeeping, and the `±1` update —
added when the DCT coefficient is non-negative, subtracted otherwise.
`minPos.toNat` models the `coeff[minPos]` access (in the source `minPos` has
always been set to a block position at this point). -/
def sbhApply (resiDct coeff : List Int) (numSig : Nat) (st : CandSt) : List Int × Nat :=
  let p := st.minPos.toNat
  let c := coeff.getD p 0
  let fc := if c = 32767 ∨ c = -32768 then -1 else st.finalChange
  let numSig' := if c = 0 then numSig + 1
    else if fc = -1 ∧ c.natAbs = 1 then numSig - 1
    else numSig
  let c' := if 0 ≤ resiDct.getD p 0 then c + fc else c - fc
  (coeff.set p c', numSig')

/-- `for (n = 15; n >= 0; --n) if (coeff[scan[n + cgStartPos]]) break`:
the last (highest reverse-scan index) non-zero coefficient of the group,
`none` when the group is empty. -/
def lastNZInCG (coeff : List Int) (scan : List Nat) (cgStart : Nat) : Option Nat :=
  (List.range SCAN_SET_SIZE).reverse.find?
    (fun n => decide (coeff.getD (scan.getD (n + cgStart) 0) 0 ≠ 0))

/-- `for (n = 0;; n++) if (coeff[scan[n + cgStartPos]]) break`: the first
non-zero coefficient of the group.  The C loop has no bound; it terminates
because the caller only runs it when the group has a non-zero coefficient. -/
def firstNZInCG (coeff : List Int) (scan : List Nat) (cgStart : Nat) : Nat :=
  ((List.range SCAN_SET_SIZE).find?
    (fun n => decide (coeff.getD (scan.getD (n + cgStart) 0) 0 ≠ 0))).getD 0

/-- `absSum`: the sum of the (signed) levels from `firstNZ` to `lastNZ`.
Both passes accumulate the signed values; only the parity bit is consumed,
and bit 0 of the wrapped C accumulator is the mathematical sum mod 2. -/
def cgAbsSum (coeff : List Int) (scan : List Nat) (cgStart firstNZ lastNZ : Nat) : Int :=
  ((List.range' firstNZ (lastNZ + 1 - firstNZ)).map
    (fun n => coeff.getD (scan.getD (n + cgStart) 0) 0)).sum

/-- Re-packs the `(coeff, numSig)` result of a processed group with the
cleared `lastCG` flag (`lastCG = false` at the end of a non-skipped group). -/
def withFalse (r : List Int × Nat) : List Int × Nat × Bool := (r.1, r.2, false)

/-- One coding group of `Quant::signBitHidingHDQ` (loop body, lines 223-320).
An all-zero group `continue`s without clearing `lastCG`; otherwise, when the
first/last non-zero distance reaches `SBH_THRESHOLD` and the sign bit of the
first non-zero mismatches the parity of the level sum, the minimum-cost
candidate is toggled by one. -/
def sbhProcessCG (resiDct deltaU : List Int) (scan : List Nat) (cg : Nat)
    (coeff : List Int) (numSig : Nat) (lastCG : Bool) : List Int × Nat × Bool :=
  match lastNZInCG coeff scan (cg * SCAN_SET_SIZE) with
  | none => (coeff, numSig, lastCG)
  | some lastNZ =>
    if SBH_THRESHOLD ≤ (lastNZ : Int) -
        (firstNZInCG coeff scan (cg * SCAN_SET_SIZE) : Int) then
      if (if 0 < coeff.getD (scan.getD (cg * SCAN_SET_SIZE +
            firstNZInCG coeff scan (cg * SCAN_SET_SIZE)) 0) 0 then (0 : Int) else 1) ≠
          cgAbsSum coeff scan (cg * SCAN_SET_SIZE)
            (firstNZInCG coeff scan (cg * SCAN_SET_SIZE)) lastNZ % 2 then
        withFalse (sbhApply resiDct coeff numSig
          (candRun MAX_INT (fun n => scan.getD (n + cg * SCAN_SET_SIZE) 0)
            (hdqEval coeff deltaU resiDct scan (cg * SCAN_SET_SIZE)
              (firstNZInCG coeff scan (cg * SCAN_SET_SIZE))
              (if 0 < coeff.getD (scan.getD (cg * SCAN_SET_SIZE +
                firstNZInCG coeff scan (cg * SCAN_SET_SIZE)) 0) 0 then (0 : Int) else 1))
            (if lastCG then lastNZ else SCAN_SET_SIZE - 1)))
      else (coeff, numSig, false)
    else (coeff, numSig, false)

/-- `Quant::signBitHidingHDQ`: iterate the coding groups in reverse scan
order.  `numCG = 1 << (log2TrSizeCG * 2)`; `scan` maps reverse-scan position
to raster block position. -/
def signBitHidingHDQ (resiDct deltaU : List Int) (scan : List Nat) (numCG : Nat)
    (coeff : List Int) (numSig : Nat) : List Int × Nat :=
  let r := ((List.range numCG).reverse).foldl
    (fun acc cg => sbhProcessCG resiDct deltaU scan cg acc.1 acc.2.1 acc.2.2)
    (coeff, numSig, true)
  (r.1, r.2.1)

/-!  ## The integer-exact final phase of `Quant::rdoQuant`

The double-valued level search (lines 567-873) decides the per-position
absolute levels in `dstCoeff`, the best last position `bestLastIdx` and the
position `lastScanPos` of the first non-zero seen in the reverse scan.  From
there the function is exact integer code, embedded below. -/

/-- One step of the recount loop of `Quant::rdoQuant` (lines 877-884): read
the level at the scanned block position, bump the count when it is non-zero,
and write back the level with the DCT coefficient's sign applied. -/
def rdoRecountStep (resiDct : List Int) (scan : List Nat) (acc : List Int × Nat) (pos : Nat) :
    List Int × Nat :=
  (acc.1.set (scan.getD pos 0)
    (sgnApply (resiDct.getD (scan.getD pos 0) 0) (acc.1.getD (scan.getD pos 0) 0)),
   acc.2 + (if acc.1.getD (scan.getD pos 0) 0 ≠ 0 then 1 else 0))

/-- One step of the cleanup loop of `Quant::rdoQuant` (lines 888-889): zero
the level at the scanned block position. -/
def rdoCleanStep (scan : List Nat) (c : List Int) (pos : Nat) : List Int :=
  c.set (scan.getD pos 0) 0

/-- Lines 875-889 of `Quant::rdoQuant`: recount the significant coefficients
over scan positions `0 ≤ pos < bestLastIdx`, re-applying the sign of the DCT
coefficient to each level, then zero the levels at scan positions
`bestLastIdx ≤ pos ≤ lastScanPos`. -/
def rdoFinalize (resiDct : List Int) (scan : List Nat) (dstCoeff : List Int)
    (bestLastIdx lastScanPos : Nat) : List Int × Nat :=
  let r := (List.range bestLastIdx).foldl (rdoRecountStep resiDct scan) (dstCoeff, 0)
  ((List.range' bestLastIdx (lastScanPos + 1 - bestLastIdx)).foldl (rdoCleanStep scan) r.1,
   r.2)

/-- Candidate evaluation of the RD sign-hiding pass (`Quant::rdoQuant` lines
941-982).  `32768 = 1 << 15` is the hard-coded cost scale and `131072 =
4 << 15` the last-coefficient discount.  `rdFactor`, `rateIncUp`,
`rateIncDown` and `sigRateDelta` are the integer side channels the earlier
(floating-point) phase recorded. -/
def rdsbhEval (dstCoeff deltaU rateIncUp rateIncDown sigRateDelta resiDct : List Int)
    (scan : List Nat) (rdFactor : Int) (subPos firstNZ lastNZ : Nat) (lastCG : Bool)
    (signbit : Int) (n : Nat) (_prevChange : Int) : Int × Int :=
  let blkPos := scan.getD (n + subPos) 0
  if dstCoeff.getD blkPos 0 ≠ 0 then
    let costUp := rdFactor * (-(deltaU.getD blkPos 0)) + rateIncUp.getD blkPos 0
    let isOne := (dstCoeff.getD blkPos 0).natAbs = 1
    let costDown0 := rdFactor * deltaU.getD blkPos 0 + rateIncDown.getD blkPos 0 -
      (if isOne then 32768 + sigRateDelta.getD blkPos 0 else 0)
    let costDown := if lastCG ∧ lastNZ = n ∧ isOne then costDown0 - 131072 else costDown0
    if costUp < costDown then (costUp, 1)
    else if n = firstNZ ∧ isOne then (MAX_INT64, -1)
    else (costDown, -1)
  else
    let c0 := rdFactor * (-((deltaU.getD blkPos 0).natAbs : Int)) + 32768 +
      rateIncUp.getD blkPos 0 + sigRateDelta.getD blkPos 0
    if n < firstNZ ∧ (if 0 ≤ resiDct.getD blkPos 0 then (0 : Int) else 1) ≠ signbit
    then (MAX_INT64, 1) else (c0, 1)

/-- One coding group of the RD sign-hiding pass (`Quant::rdoQuant` lines
898-1008), with the same skip / threshold / parity structure as
`sbhProcessCG` and the shared `±1` application. -/
def rdsbhProcessCG (resiDct deltaU rateIncUp rateIncDown sigRateDelta : List Int)
    (scan : List Nat) (rdFactor : Int) (subSet : Nat)
    (dstCoeff : List Int) (numSig : Nat) (lastCG : Bool) : List Int × Nat × Bool :=
  match lastNZInCG dstCoeff scan (subSet * SCAN_SET_SIZE) with
  | none => (dstCoeff, numSig, lastCG)
  | some lastNZ =>
    if SBH_THRESHOLD ≤ (lastNZ : Int) -
        (firstNZInCG dstCoeff scan (subSet * SCAN_SET_SIZE) : Int) then
      if (if 0 < dstCoeff.getD (scan.getD (subSet * SCAN_SET_SIZE +
            firstNZInCG dstCoeff scan (subSet * SCAN_SET_SIZE)) 0) 0 then (0 : Int) else 1) ≠
          cgAbsSum dstCoeff scan (subSet * SCAN_SET_SIZE)
            (firstNZInCG dstCoeff scan (subSet * SCAN_SET_SIZE)) lastNZ % 2 then
        withFalse (sbhApply resiDct dstCoeff numSig
          (candRun MAX_INT64 (fun n => scan.getD (n + subSet * SCAN_SET_SIZE) 0)
            (rdsbhEval dstCoeff deltaU rateIncUp rateIncDown sigRateDelta resiDct scan
              rdFactor (subSet * SCAN_SET_SIZE)
              (firstNZInCG dstCoeff scan (subSet * SCAN_SET_SIZE)) lastNZ lastCG
              (if 0 < dstCoeff.getD (scan.getD (subSet * SCAN_SET_SIZE +
                firstNZInCG dstCoeff scan (subSet * SCAN_SET_SIZE)) 0) 0 then (0 : Int) else 1))
            (if lastCG then lastNZ else SCAN_SET_SIZE - 1)))
      else (dstCoeff, numSig, false)
    else (dstCoeff, numSig, false)

/-- The RD sign-hiding pass (`Quant::rdoQuant` lines 892-1009, body of the
`bSignHideEnabled && numSig >= 2` branch): iterate coding groups from
`cgLastScanPos` down to 0. -/
def rdSignHide (resiDct deltaU rateIncUp rateIncDown sigRateDelta : List Int)
    (scan : List Nat) (rdFactor : Int) (cgLastScanPos : Nat)
    (dstCoeff : List Int) (numSig : Nat) : List Int × Nat :=
  let r := ((List.range (cgLastScanPos + 1)).reverse).foldl
    (fun acc s => rdsbhProcessCG resiDct deltaU rateIncUp rateIncDown sigRateDelta scan
      rdFactor s acc.1 acc.2.1 acc.2.2) (dstCoeff, numSig, true)
  (r.1, r.2.1)

/-- The scalar-quantization path of `Quant::transformNxN` (lines 386-408):
scalar quant, then sign-data hiding when the PPS enables it and at least two
levels are significant. -/
def transformNxN_scalarPath (qcs : List Int) (add : Int) (qbits : Nat)
    (bSignHideEnabled : Bool) (scan : List Nat) (numCG : Nat)
    (resiDct : List Int) : List Int × Nat :=
  let coeff := quantBlock qcs add qbits resiDct
  let deltaU := quantDeltaUs qcs add qbits resiDct
  let numSig := quantNumSig qcs add qbits resiDct
  if 2 ≤ numSig ∧ bSignHideEnabled then
    signBitHidingHDQ resiDct deltaU scan numCG coeff numSig
  else (coeff, numSig)

/-- The tail of `Quant::rdoQuant` after the best last position is known:
recount/sign re-application/cleanup (lines 875-889) followed by the RD
sign-hiding pass when enabled and `numSig >= 2` (line 892). -/
def rdoQuantTail (resiDct deltaU rateIncUp rateIncDown sigRateDelta : List Int)
    (scan : List Nat) (rdFactor : Int) (bSignHideEnabled : Bool) (cgLastScanPos : Nat)
    (dstCoeff : List Int) (bestLastIdx lastScanPos : Nat) : List Int × Nat :=
  let r := rdoFinalize resiDct scan dstCoeff bestLastIdx lastScanPos
  if bSignHideEnabled ∧ 2 ≤ r.2 then
    rdSignHide resiDct deltaU rateIncUp rateIncDown sigRateDelta scan rdFactor
      cgLastScanPos r.1 r.2
  else r

/-!  ## The transquant-bypass paths of `transformNxN` / `invtransformNxN` -/

/-- Modelled from the spec: the `cvt16to32_cnt` primitive called by
`Quant::transformNxN` on the transquant-bypass path (line 331); the kernel
itself sits behind the primitive dispatch table and is not among the sources
here.  Per §4.G the residual is copied verbatim into the level array, and per
the §3 invariant (`numSig` equals the count of non-zero entries in the output
level array, which the callers and the `numSig`/`count_nonzero` assertion of
`invtransformNxN` rely on) the returned `numSig` is the number of non-zero
copied samples.  The residual block is a `trSize x trSize` grid read with
row stride `stride`; the coefficient array is dense (stride `trSize`). -/
def cvt16to32_cnt (trSize stride : Nat) (residual : Nat → Int) : (Nat → Int) × Nat :=
  (fun p => residual (p / trSize * stride + p % trSize),
   (List.range (trSize * trSize)).countP
     (fun p => decide (residual (p / trSize * stride + p % trSize) ≠ 0)))

/-- Truncation to `int16_t` (the cast in `invtransformNxN` line 419). -/
def toInt16 (x : Int) : Int := (x + 32768) % 65536 - 32768

/-- The transquant-bypass path of `Quant::invtransformNxN` (lines 414-421):
`residual[k * stride + j] = (int16_t)coeff[k * trSize + j]`; the result is
the output grid viewed at row `k`, column `j`. -/
def invtransformNxN_bypass (trSize : Nat) (coeff : Nat → Int) : Nat → Nat → Int :=
  fun k j => toInt16 (coeff (k * trSize + j))

/-!  ## `setQPforQuant` for chroma -/

/-- `X265_CSP_I420` (x265.h colour-space index). -/
def X265_CSP_I420 : Nat := 1

/-- Modelled from the spec: `g_chromaScale`, the standard HEVC 4:2:0 chroma
QP mapping table (the `g_chromaScale` global lives in the repository's
read-only table unit, outside these sources).  Identity below 30, the HEVC
Table 8-10 values for 30..43, and `qp - 6` above. -/
def g_chromaScale : List Nat :=
  [0, 1, 2, 3, 4, 5, 6, 7, 8, 9, 10, 11, 12, 13, 14, 15, 16, 17, 18, 19,
   20, 21, 22, 23, 24, 25, 26, 27, 28, 29,
   29, 30, 31, 32, 33, 33, 34, 34, 35, 35, 36, 36, 37, 37,
   38, 39, 40, 41, 42, 43, 44, 45, 46, 47, 48, 49, 50, 51]

/-- The chroma branch of `Quant::setQPforQuant` (lines 201-214): clip
`qpy + chromaQPOffset` to `[-QP_BD_OFFSET, 57]`; at 30 and above map through
`g_chromaScale` for 4:2:0 or clip to 51 for the other chroma formats; the
result (plus `QP_BD_OFFSET`) is handed to `QpParam::setQpParam`.  Returned
here is that final QP value. -/
def setQPforQuantChroma (qpy chromaQPOffset : Int) (chFmt : Nat) : Int :=
  let qp := Clip3 (-QP_BD_OFFSET) 57 (qpy + chromaQPOffset)
  let qp' := if 30 ≤ qp then
      (if chFmt = X265_CSP_I420 then (g_chromaScale.getD qp.toNat 0 : Int) else min qp 51)
    else qp
  qp' + QP_BD_OFFSET

/-- `QpParam::setQpParam`: `per = qp / 6`, `rem = qp % 6`. -/
def qpPer (qp : Int) : Int := qp / 6

/-- `rem = qp % 6` of `QpParam::setQpParam`. -/
def qpRem (qp : Int) : Int := qp % 6

/-!  ## Intra DC prediction (`intra_pred_dc_c_new`, intrapred.cpp lines 46-63)

The reference array `srcPix` is laid out `[topLeft, top(0..2N-1),
left(0..2N-1)]`; samples are unsigned pixels, so `Nat` arithmetic matches the
C `int` arithmetic exactly. -/

/-- The accumulation loop of `intra_pred_dc_c_new` lines 51-55: `dcVal`
starts at `width` and accumulates `srcPix[1 + i] + srcPix[2*width + 1 + i]`
for `i < width`, then divides by `width + width`. -/
def intra_dc_val (width : Nat) (srcPix : List Nat) : Nat :=
  ((List.range width).foldl
    (fun acc i => acc + srcPix.getD (1 + i) 0 + srcPix.getD (2 * width + 1 + i) 0) width) /
    (width + width)

/-- `intra_pred_dc_c_new`: fill every sample with `dcVal`; when `bFilter` is
set apply `dcPredFilter` (lines 30-44) to the top row and left column. -/
def intra_pred_dc_c_new (width : Nat) (srcPix : List Nat) (bFilter : Bool) :
    Nat → Nat → Nat :=
  fun k l =>
    if bFilter then
      if k = 0 ∧ l = 0 then
        (srcPix.getD 1 0 + srcPix.getD (2 * width + 1) 0 + 2 * intra_dc_val width srcPix + 2) / 4
      else if k = 0 then (srcPix.getD (1 + l) 0 + 3 * intra_dc_val width srcPix + 2) / 4
      else if l = 0 then
        (srcPix.getD (2 * width + 1 + k) 0 + 3 * intra_dc_val width srcPix + 2) / 4
      else intra_dc_val width srcPix
    else intra_dc_val width srcPix

/-- The DC value as the spec's words describe it — the rounded average of the
`2N` top and `2N` left reference samples — stated only to compare against the
code's `intra_dc_val`, which averages `N` top and `N` left samples. -/
def intra_dc_val_claimed (width : Nat) (srcPix : List Nat) : Nat :=
  ((List.range (2 * width)).foldl
    (fun acc i => acc + srcPix.getD (1 + i) 0 + srcPix.getD (2 * width + 1 + i) 0)
    (2 * width)) / (4 * width)

/-!  ## The inverse transform and its DC-only fast path -/

/-- Modelled from the spec: one pass of the HEVC inverse integer transform
(§4.B: butterfly matrices, right shift with rounding `1 << (shift-1)`,
intermediate clamping to the signed-16 interval).  `M k i` is the transform
matrix entry (`g_t4`/`g_t8`/... row `k`, column `i`); pass output at row `j`,
column `i` is `clip(( Σ_k M[k][i] * src[k][j] + add ) >> shift)`. -/
def idctPass (M : Nat → Nat → Int) (n : Nat) (shift : Nat) (src : Nat → Nat → Int) :
    Nat → Nat → Int :=
  fun j i =>
    Clip3 (-32768) 32767
      (((Finset.range n).sum (fun k => M k i * src k j) + 2 ^ (shift - 1)) / 2 ^ shift)

/-- Modelled from the spec: the two-pass inverse transform, first pass shift
7, second pass shift `12 - (X265_DEPTH - 8)`; the second pass reads the first
pass's output grid exactly as the C kernels read their intermediate buffer. -/
def idct2d (M : Nat → Nat → Int) (n : Nat) (coef : Nat → Nat → Int) : Nat → Nat → Int :=
  idctPass M n (12 - (X265_DEPTH - 8)) (idctPass M n 7 coef)

/-- The DC-only fast-path value of `Quant::invtransformNxN` (lines 466-471,
with `X265_DEPTH = 8`): `shift_1st = 7`, `add_1st = 64`, `shift_2nd = 12`,
`add_2nd = 2048`, `dc_val = (((coef[0] * 64 + 64) >> 7) * 64 + 2048) >> 12`. -/
def dcVal (c0 : Int) : Int := ((c0 * 64 + 64) / 128 * 64 + 2048) / 4096

/-- The non-transform-skip reconstruction branch of `Quant::invtransformNxN`
(lines 456-478): take the DC fast path — `blockfill_s` of `dcVal` — exactly
when `numSig == 1`, the DC coefficient is non-zero and the block is not DST;
otherwise run the full inverse transform. -/
def invtransformResidual (M : Nat → Nat → Int) (n : Nat) (numSig : Nat)
    (coef : Nat → Nat → Int) (useDST : Bool) : Nat → Nat → Int :=
  if numSig = 1 ∧ coef 0 0 ≠ 0 ∧ ¬useDST then fun _ _ => dcVal (coef 0 0)
  else idct2d M n coef

/-- Modelled from the spec: `g_t4`, the HEVC 4-point inverse-DCT basis matrix
(§4.B: kernels follow the HEVC specification exactly). -/
def g_t4 : Nat → Nat → Int :=
  fun k i =>
    (([[64, 64, 64, 64], [83, 36, -36, -83], [64, -64, -64, 64],
       [36, -83, 83, 36]] : List (List Int)).getD k []).getD i 0

/-- Modelled from the spec: the 4x4 diagonal scan order (`scan[]` of
`TUEntropyCodingParameters` for `SCAN_DIAG` at `log2TrSize = 2`), mapping
reverse-scan position to raster block position. -/
def scan4x4diag : List Nat :=
  [0, 4, 1, 8, 5, 2, 12, 9, 6, 3, 13, 10, 7, 14, 11, 15]

/-- Concrete 4x4 DCT-coefficient block for exercising the scalar path. -/
def exResi1 : List Int := [100, -50, 30, 0, 0, 0, 0, 0, 8, 0, 0, 0, 0, 0, 0, 0]

/-- Concrete 4x4 DCT-coefficient block for exercising the RDOQ tail. -/
def exResi2 : List Int := [100, -7, 0, 0, -60, 0, 0, 0, 0, 0, 0, 0, 0, 0, 0, 0]

/-- Concrete absolute levels as the RDOQ level search would leave them
(non-zero only at reverse-scan positions 0, 1, 2 of the diagonal scan). -/
def exDst2 : List Int := [2, 1, 0, 0, 1, 0, 0, 0, 0, 0, 0, 0, 0, 0, 0, 0]

/-!  ## List helpers -/

lemma withFalse_fst (r : List Int × Nat) : (withFalse r).1 = r.1 := rfl

lemma withFalse_snd (r : List Int × Nat) : (withFalse r).2.1 = r.2 := rfl

lemma getD_set_ne (l : List Int) (p r : Nat) (v : Int) (h : r ≠ p) :
    (l.set p v).getD r 0 = l.getD r 0 := by
  simp [List.getD, List.getElem?_set_ne (Ne.symm h)]

lemma getD_set_self' (l : List Int) (p : Nat) (v : Int) (h : p < l.length) :
    (l.set p v).getD p 0 = v := by
  rw [List.getD_eq_getElem _ _ (by simpa using h)]
  exact List.getElem_set_self _

lemma countNZ_set (l : List Int) (p : Nat) (v : Int) (h : p < l.length) :
    countNZ (l.set p v) =
      (countNZ l - (if l.getD p 0 ≠ 0 then 1 else 0)) + (if v ≠ 0 then 1 else 0) := by
  unfold countNZ
  rw [List.countP_set _ _ _ _ h, List.getD_eq_getElem _ _ h]
  by_cases hv : v ≠ 0 <;> by_cases hl : l[p] ≠ 0 <;> simp [hv, hl]

lemma one_le_countNZ (l : List Int) (p : Nat) (h : p < l.length) (h2 : l.getD p 0 ≠ 0) :
    1 ≤ countNZ l := by
  unfold countNZ
  rw [List.getD_eq_getElem _ _ h] at h2
  have : 0 < l.countP (fun x => decide (x ≠ 0)) :=
    List.countP_pos_iff.mpr ⟨l[p], List.getElem_mem h, by simpa using h2⟩
  omega

lemma countNZ_length_le (l : List Int) : countNZ l ≤ l.length := List.countP_le_length _

/-!  ## Properties of the candidate search -/

lemma candStep_minCost_le (pos : Nat → Nat) (eval : Nat → Int → Int × Int) (st : CandSt)
    (n : Nat) : (candStep pos eval st n).minCostInc ≤ st.minCostInc := by
  unfold candStep
  by_cases hsel : (eval n st.curChange).1 < st.minCostInc
  · simp only [if_pos hsel]; exact le_of_lt hsel
  · simp only [if_neg hsel]; exact le_refl _

lemma candFold_minCost_le (pos : Nat → Nat) (eval : Nat → Int → Int × Int) (ns : List Nat)
    (st : CandSt) : (ns.foldl (candStep pos eval) st).minCostInc ≤ st.minCostInc := by
  induction ns generalizing st with
  | nil => exact le_refl _
  | cons a tl ih =>
    calc (List.foldl (candStep pos eval) (candStep pos eval st a) tl).minCostInc
        ≤ (candStep pos eval st a).minCostInc := ih _
      _ ≤ st.minCostInc := candStep_minCost_le pos eval st a

/-- Fold invariant of the candidate search: either nothing has been selected
(`minPos = -1`, `finalChange = 0`, cost still at the ceiling) or the selected
`(minPos, finalChange)` pair was produced, at finite cost, by the evaluation
of some processed candidate. -/
lemma candFold_sel (pos : Nat → Nat) (eval : Nat → Int → Int × Int) (maxC : Int)
    (Q : Nat → Int → Prop) (ns : List Nat) (st : CandSt)
    (hQ : ∀ n ∈ ns, ∀ pc, (eval n pc).1 < maxC → Q n (eval n pc).2)
    (hst : st.minCostInc ≤ maxC ∧
      (st.minCostInc < maxC →
        ∃ n, st.minPos = (pos n : Int) ∧ Q n st.finalChange) ∧
      (¬st.minCostInc < maxC → st.minPos = -1 ∧ st.finalChange = 0)) :
    (ns.foldl (candStep pos eval) st).minCostInc ≤ maxC ∧
      ((ns.foldl (candStep pos eval) st).minCostInc < maxC →
        ∃ n, (ns.foldl (candStep pos eval) st).minPos = (pos n : Int) ∧
          Q n (ns.foldl (candStep pos eval) st).finalChange) ∧
      (¬(ns.foldl (candStep pos eval) st).minCostInc < maxC →
        (ns.foldl (candStep pos eval) st).minPos = -1 ∧
        (ns.foldl (candStep pos eval) st).finalChange = 0) := by
  induction ns generalizing st with
  | nil => exact hst
  | cons a tl ih =>
    refine ih (candStep pos eval st a) (fun n hn pc h => hQ n (List.mem_cons_of_mem a hn) pc h) ?_
    unfold candStep
    by_cases hsel : (eval a st.curChange).1 < st.minCostInc
    · simp only [if_pos hsel]
      have hfin : (eval a st.curChange).1 < maxC := lt_of_lt_of_le hsel hst.1
      refine ⟨le_of_lt hfin, fun _ => ⟨a, rfl, hQ a (List.mem_cons_self a tl) _ hfin⟩,
        fun hcon => absurd hfin hcon⟩
    · simp only [if_neg hsel]
      exact hst

/-- Summary of the candidate search: either no candidate was ever affordable
(then `minPos`/`finalChange` keep their initial `-1`/`0`) or the result pair
comes from the finite-cost evaluation of a candidate `n ≤ start`. -/
lemma candRun_sel (maxC : Int) (pos : Nat → Nat) (eval : Nat → Int → Int × Int) (start : Nat)
    (Q : Nat → Int → Prop)
    (hQ : ∀ n, n ≤ start → ∀ pc, (eval n pc).1 < maxC → Q n (eval n pc).2) :
    ((candRun maxC pos eval start).minCostInc < maxC →
      ∃ n, n ≤ start ∧ (candRun maxC pos eval start).minPos = (pos n : Int) ∧
        Q n (candRun maxC pos eval start).finalChange) ∧
      (¬(candRun maxC pos eval start).minCostInc < maxC →
        (candRun maxC pos eval start).minPos = -1 ∧
        (candRun maxC pos eval start).finalChange = 0) := by
  have h := candFold_sel pos eval maxC (fun n ch => n ≤ start ∧ Q n ch)
    ((List.range (start + 1)).reverse)
    { minCostInc := maxC, minPos := -1, finalChange := 0, curCost := maxC, curChange := 0 }
    (fun n hn pc hlt => by
      have hn' : n ≤ start := by
        have := List.mem_range.mp (List.mem_reverse.mp hn); omega
      exact ⟨hn', hQ n hn' pc hlt⟩)
    ⟨le_refl _, fun h => absurd h (lt_irrefl _), fun _ => ⟨rfl, rfl⟩⟩
  refine ⟨fun hlt => ?_, fun hge => (h.2.2) hge⟩
  obtain ⟨n, hpos, hle, hQn⟩ := (h.2.1) hlt
  exact ⟨n, hle, hpos, hQn⟩

/-- If some candidate `n₀ ≤ start` evaluates below the cost ceiling whatever
the stale state, the search ends strictly below the ceiling (so something was
selected). -/
lemma candRun_hits (maxC : Int) (pos : Nat → Nat) (eval : Nat → Int → Int × Int)
    (start n₀ : Nat) (h : n₀ ≤ start) (hfin : ∀ pc, (eval n₀ pc).1 < maxC) :
    (candRun maxC pos eval start).minCostInc < maxC := by
  unfold candRun
  have hmem : n₀ ∈ (List.range (start + 1)).reverse :=
    List.mem_reverse.mpr (List.mem_range.mpr (by omega))
  have key : ∀ (ns : List Nat) (st : CandSt), n₀ ∈ ns → st.minCostInc ≤ maxC →
      (ns.foldl (candStep pos eval) st).minCostInc < maxC := by
    intro ns
    induction ns with
    | nil => intro st h0 _; cases h0
    | cons a tl ih =>
      intro st h0 hle
      rcases List.mem_cons.mp h0 with rfl | htl
      · have hstep : (candStep pos eval st n₀).minCostInc < maxC := by
          unfold candStep
          by_cases hsel : (eval n₀ st.curChange).1 < st.minCostInc
          · simp only [if_pos hsel]; exact hfin _
          · simp only [if_neg hsel]
            exact lt_of_le_of_lt (not_lt.mp hsel) (hfin _)
        exact lt_of_le_of_lt (candFold_minCost_le pos eval tl _) hstep
      · exact ih _ htl (le_trans (candStep_minCost_le pos eval st a) hle)
  exact key _ _ hmem (le_refl _)

/-!  ## Properties of the shared `±1` application -/

/-- The `±1` update leaves every other block position unchanged. -/
lemma sbhApply_other (resiDct coeff : List Int) (numSig : Nat) (st : CandSt)
    (r : Nat) (h : r ≠ st.minPos.toNat) :
    (sbhApply resiDct coeff numSig st).1.getD r 0 = coeff.getD r 0 := by
  unfold sbhApply
  exact getD_set_ne _ _ _ _ h

/-- Length is preserved by the `±1` update. -/
lemma sbhApply_length (resiDct coeff : List Int) (numSig : Nat) (st : CandSt) :
    (sbhApply resiDct coeff numSig st).1.length = coeff.length := by
  unfold sbhApply
  exact List.length_set _ _ _

/-- Unfolding of `sbhApply` (the `let`s made explicit). -/
lemma sbhApply_eq (resiDct coeff : List Int) (numSig : Nat) (st : CandSt) :
    sbhApply resiDct coeff numSig st =
      (coeff.set st.minPos.toNat
        (if 0 ≤ resiDct.getD st.minPos.toNat 0
         then coeff.getD st.minPos.toNat 0 +
           (if coeff.getD st.minPos.toNat 0 = 32767 ∨ coeff.getD st.minPos.toNat 0 = -32768
            then -1 else st.finalChange)
         else coeff.getD st.minPos.toNat 0 -
           (if coeff.getD st.minPos.toNat 0 = 32767 ∨ coeff.getD st.minPos.toNat 0 = -32768
            then -1 else st.finalChange)),
       if coeff.getD st.minPos.toNat 0 = 0 then numSig + 1
       else if (if coeff.getD st.minPos.toNat 0 = 32767 ∨ coeff.getD st.minPos.toNat 0 = -32768
                then -1 else st.finalChange) = -1 ∧ (coeff.getD st.minPos.toNat 0).natAbs = 1
            then numSig - 1 else numSig) := rfl

/-- Value analysis of the applied change `c ↦ c'`: the written value keeps the
sign discipline (a positive value only on a non-negative DCT coefficient, a
negative one only on a negative DCT coefficient) and never crosses zero. -/
lemma sbhVal_sign (d c fc0 : Int)
    (hfc : fc0 = -1 ∨ fc0 = 0 ∨ fc0 = 1)
    (hz : c = 0 → fc0 ≠ -1)
    (hsp : 0 < c → 0 ≤ d) (hsn : c < 0 → d < 0) :
    ((0 < (if 0 ≤ d then c + (if c = 32767 ∨ c = -32768 then -1 else fc0)
           else c - (if c = 32767 ∨ c = -32768 then -1 else fc0)) → 0 ≤ d) ∧
     ((if 0 ≤ d then c + (if c = 32767 ∨ c = -32768 then -1 else fc0)
       else c - (if c = 32767 ∨ c = -32768 then -1 else fc0)) < 0 → d < 0)) ∧
    (0 < c → 0 ≤ (if 0 ≤ d then c + (if c = 32767 ∨ c = -32768 then -1 else fc0)
                  else c - (if c = 32767 ∨ c = -32768 then -1 else fc0))) ∧
    (c < 0 → (if 0 ≤ d then c + (if c = 32767 ∨ c = -32768 then -1 else fc0)
              else c - (if c = 32767 ∨ c = -32768 then -1 else fc0)) ≤ 0) := by
  split_ifs <;> omega

/-- Value analysis of the applied change, non-zero target: when the update
decrements an absolute level of 1 the value becomes exactly 0, otherwise it
stays non-zero; a zero target always becomes `±1`. -/
lemma sbhVal_zero (d c fc0 : Int)
    (hfc : fc0 = -1 ∨ fc0 = 1)
    (hz : c = 0 → fc0 = 1)
    (hsp : 0 < c → 0 ≤ d) (hsn : c < 0 → d < 0) :
    (c = 0 → (if 0 ≤ d then c + (if c = 32767 ∨ c = -32768 then -1 else fc0)
              else c - (if c = 32767 ∨ c = -32768 then -1 else fc0)) ≠ 0) ∧
    (((if c = 32767 ∨ c = -32768 then -1 else fc0) = -1 ∧ c.natAbs = 1) →
      (if 0 ≤ d then c + (if c = 32767 ∨ c = -32768 then -1 else fc0)
       else c - (if c = 32767 ∨ c = -32768 then -1 else fc0)) = 0) ∧
    ((c ≠ 0 ∧ ¬((if c = 32767 ∨ c = -32768 then -1 else fc0) = -1 ∧ c.natAbs = 1)) →
      (if 0 ≤ d then c + (if c = 32767 ∨ c = -32768 then -1 else fc0)
       else c - (if c = 32767 ∨ c = -32768 then -1 else fc0)) ≠ 0) := by
  split_ifs <;> omega

/-- Value analysis, magnitude: the update moves the absolute level by exactly
one (given a real `±1` change and sign-consistent input). -/
lemma sbhVal_abs (d c fc0 : Int)
    (hfc : fc0 = -1 ∨ fc0 = 1)
    (hz : c = 0 → fc0 = 1)
    (hsp : 0 < c → 0 ≤ d) (hsn : c < 0 → d < 0) :
    (if 0 ≤ d then c + (if c = 32767 ∨ c = -32768 then -1 else fc0)
     else c - (if c = 32767 ∨ c = -32768 then -1 else fc0)).natAbs = c.natAbs + 1 ∨
    c.natAbs = (if 0 ≤ d then c + (if c = 32767 ∨ c = -32768 then -1 else fc0)
     else c - (if c = 32767 ∨ c = -32768 then -1 else fc0)).natAbs + 1 := by
  split_ifs <;> omega

/-- The `±1` application preserves sign consistency of the whole buffer. -/
lemma sbhApply_signOk (resiDct coeff : List Int) (numSig : Nat) (st : CandSt)
    (hfc : st.finalChange = -1 ∨ st.finalChange = 0 ∨ st.finalChange = 1)
    (hz : coeff.getD st.minPos.toNat 0 = 0 → st.finalChange ≠ -1)
    (hs : signOk resiDct coeff) :
    signOk resiDct (sbhApply resiDct coeff numSig st).1 := by
  intro r
  by_cases hr : r = st.minPos.toNat
  · rw [hr]
    by_cases hp : st.minPos.toNat < coeff.length
    · rw [sbhApply_eq, getD_set_self' _ _ _ hp]
      exact (sbhVal_sign (resiDct.getD st.minPos.toNat 0) (coeff.getD st.minPos.toNat 0)
        st.finalChange hfc hz (hs st.minPos.toNat).1 (hs st.minPos.toNat).2).1
    · rw [sbhApply_eq, List.set_eq_of_length_le (le_of_not_lt hp)]
      exact hs st.minPos.toNat
  · rw [sbhApply_other _ _ _ _ _ hr]
    exact hs r

/-- The `±1` application keeps `numSig` equal to the number of non-zero
levels. -/
lemma sbhApply_numSig (resiDct coeff : List Int) (numSig : Nat) (st : CandSt)
    (hp : st.minPos.toNat < coeff.length)
    (hfc : st.finalChange = -1 ∨ st.finalChange = 1)
    (hz : coeff.getD st.minPos.toNat 0 = 0 → st.finalChange = 1)
    (hs : signOk resiDct coeff)
    (hn : numSig = countNZ coeff) :
    (sbhApply resiDct coeff numSig st).2 = countNZ (sbhApply resiDct coeff numSig st).1 := by
  have hzs := sbhVal_zero (resiDct.getD st.minPos.toNat 0) (coeff.getD st.minPos.toNat 0)
    st.finalChange hfc hz (hs st.minPos.toNat).1 (hs st.minPos.toNat).2
  rw [sbhApply_eq, countNZ_set _ _ _ hp]
  by_cases hc0 : coeff.getD st.minPos.toNat 0 = 0
  · rw [if_pos hc0, if_neg (not_not_intro hc0), if_pos (hzs.1 hc0)]
    omega
  · have h1le := one_le_countNZ coeff st.minPos.toNat hp hc0
    rw [if_neg hc0, if_pos hc0]
    by_cases hdec : (if coeff.getD st.minPos.toNat 0 = 32767 ∨
        coeff.getD st.minPos.toNat 0 = -32768 then (-1 : Int) else st.finalChange) = -1 ∧
        (coeff.getD st.minPos.toNat 0).natAbs = 1
    · rw [if_pos hdec, if_neg (not_not_intro (hzs.2.1 hdec))]
      omega
    · rw [if_neg hdec, if_pos (hzs.2.2 ⟨hc0, hdec⟩)]
      omega

/-- The `±1` application changes exactly the selected position, by exactly one
in absolute value. -/
lemma sbhApply_shape (resiDct coeff : List Int) (numSig : Nat) (st : CandSt)
    (hp : st.minPos.toNat < coeff.length)
    (hfc : st.finalChange = -1 ∨ st.finalChange = 1)
    (hz : coeff.getD st.minPos.toNat 0 = 0 → st.finalChange = 1)
    (hs : signOk resiDct coeff) :
    ((sbhApply resiDct coeff numSig st).1.getD st.minPos.toNat 0).natAbs =
        (coeff.getD st.minPos.toNat 0).natAbs + 1 ∨
      (coeff.getD st.minPos.toNat 0).natAbs =
        ((sbhApply resiDct coeff numSig st).1.getD st.minPos.toNat 0).natAbs + 1 := by
  rw [sbhApply_eq, getD_set_self' _ _ _ hp]
  exact sbhVal_abs (resiDct.getD st.minPos.toNat 0) (coeff.getD st.minPos.toNat 0)
    st.finalChange hfc hz (hs st.minPos.toNat).1 (hs st.minPos.toNat).2

/-!  ## Scan-permutation helpers

The scan array of `TUEntropyCodingParameters` maps reverse-scan position to
raster block position and is a permutation of `0 .. numCoeff-1` for each of
the three scan orders; theorems take that as the hypothesis
`scan.Perm (List.range numCoeff)`. -/

lemma scan_length (scan : List Nat) (numCoeff : Nat)
    (h : scan.Perm (List.range numCoeff)) : scan.length = numCoeff := by
  simpa using h.length_eq

lemma scan_getD_lt (scan : List Nat) (numCoeff : Nat) (h : scan.Perm (List.range numCoeff))
    (i : Nat) (hi : i < numCoeff) : scan.getD i 0 < numCoeff := by
  have hl := scan_length scan numCoeff h
  have hmem : scan.getD i 0 ∈ scan := by
    rw [List.getD_eq_getElem _ _ (by omega)]
    exact List.getElem_mem _
  exact List.mem_range.mp (h.mem_iff.mp hmem)

lemma scan_getD_inj (scan : List Nat) (numCoeff : Nat) (h : scan.Perm (List.range numCoeff))
    (i j : Nat) (hi : i < numCoeff) (hj : j < numCoeff)
    (he : scan.getD i 0 = scan.getD j 0) : i = j := by
  have hl := scan_length scan numCoeff h
  have hnd : scan.Nodup := h.nodup_iff.mpr (List.nodup_range numCoeff)
  rw [List.getD_eq_getElem _ _ (by omega : i < scan.length),
    List.getD_eq_getElem _ _ (by omega : j < scan.length)] at he
  exact (hnd.getElem_inj_iff).mp he

lemma scan_surj (scan : List Nat) (numCoeff : Nat) (h : scan.Perm (List.range numCoeff))
    (blk : Nat) (hblk : blk < numCoeff) : ∃ i < numCoeff, scan.getD i 0 = blk := by
  have hl := scan_length scan numCoeff h
  have hmem : blk ∈ scan := h.mem_iff.mpr (List.mem_range.mpr hblk)
  obtain ⟨i, hi, he⟩ := List.mem_iff_getElem.mp hmem
  exact ⟨i, by omega, by rw [List.getD_eq_getElem _ _ hi]; exact he⟩

/-!  ## The coding-group structure of the sign-hiding passes -/

lemma lastNZInCG_spec (coeff : List Int) (scan : List Nat) (cgStart lastNZ : Nat)
    (h : lastNZInCG coeff scan cgStart = some lastNZ) :
    lastNZ < SCAN_SET_SIZE ∧ coeff.getD (scan.getD (lastNZ + cgStart) 0) 0 ≠ 0 := by
  unfold lastNZInCG at h
  have h1 := List.find?_some h
  have h2 := List.mem_of_find?_eq_some h
  exact ⟨List.mem_range.mp (List.mem_reverse.mp h2), by simpa using h1⟩

/-- `lastNZ` is the largest non-zero reverse-scan index of its group: every
index strictly above it (up to 15) holds a zero level. -/
lemma lastNZInCG_max (coeff : List Int) (scan : List Nat) (cgStart lastNZ : Nat)
    (h : lastNZInCG coeff scan cgStart = some lastNZ) :
    ∀ m, lastNZ < m → m < SCAN_SET_SIZE → coeff.getD (scan.getD (m + cgStart) 0) 0 = 0 := by
  intro m hm hm16
  unfold lastNZInCG at h
  obtain ⟨hpb, as, bs, hsplit, hall⟩ := List.find?_eq_some.mp h
  by_contra hnz
  have hmem : m ∈ (List.range SCAN_SET_SIZE).reverse :=
    List.mem_reverse.mpr (List.mem_range.mpr hm16)
  rw [hsplit] at hmem
  rcases List.mem_append.mp hmem with hin | hin
  · have h3 := hall m hin
    rw [Bool.not_eq_true', decide_eq_false_iff_not] at h3
    exact hnz (not_not.mp h3)
  · rcases List.mem_cons.mp hin with rfl | hin2
    · omega
    · -- `m` occurs after `lastNZ` in the reversed range, so `m < lastNZ`
      have hsub : (List.range SCAN_SET_SIZE).reverse.Sublist (List.range SCAN_SET_SIZE).reverse :=
        List.Sublist.refl _
      -- derive an ordering contradiction from the structure of the reversed range
      have hpair : List.Pairwise (fun a b => b < a) (List.range SCAN_SET_SIZE).reverse := by
        simpa [List.pairwise_reverse] using (List.pairwise_lt_range SCAN_SET_SIZE)
      rw [hsplit] at hpair
      have := (List.pairwise_append.mp hpair).2.1
      have hlt : m < lastNZ := (List.rel_of_pairwise_cons this) hin2
      omega

/-- An all-zero group yields `lastNZInCG = none`. -/
lemma lastNZInCG_none (coeff : List Int) (scan : List Nat) (cgStart : Nat)
    (h : lastNZInCG coeff scan cgStart = none) :
    ∀ m, m < SCAN_SET_SIZE → coeff.getD (scan.getD (m + cgStart) 0) 0 = 0 := by
  intro m hm
  have := List.find?_eq_none.mp h m (List.mem_reverse.mpr (List.mem_range.mpr hm))
  simpa using this

/-- The candidate evaluation of `signBitHidingHDQ` pairs every finite cost
with a `±1` change, and with `+1` whenever the candidate level is zero. -/
lemma hdqEval_sel (coeff deltaU resiDct : List Int) (scan : List Nat) (cgStart firstNZ : Nat)
    (signbit : Int) (n : Nat) (pc : Int)
    (h : (hdqEval coeff deltaU resiDct scan cgStart firstNZ signbit n pc).1 < MAX_INT) :
    ((hdqEval coeff deltaU resiDct scan cgStart firstNZ signbit n pc).2 = -1 ∨
      (hdqEval coeff deltaU resiDct scan cgStart firstNZ signbit n pc).2 = 1) ∧
      (coeff.getD (scan.getD (n + cgStart) 0) 0 = 0 →
        (hdqEval coeff deltaU resiDct scan cgStart firstNZ signbit n pc).2 = 1) := by
  simp only [hdqEval] at h ⊢
  split_ifs at h ⊢ <;> simp_all [MAX_INT]

/-- At the last non-zero index of a group with `lastNZ ≠ firstNZ` the
candidate cost is finite regardless of the stale state (`deltaU > 0` yields
`-deltaU < 0`, otherwise `deltaU ≤ 0` is itself the cost). -/
lemma hdqEval_lastNZ (coeff deltaU resiDct : List Int) (scan : List Nat)
    (cgStart firstNZ lastNZ : Nat) (signbit : Int)
    (hne : lastNZ ≠ firstNZ)
    (hnz : coeff.getD (scan.getD (lastNZ + cgStart) 0) 0 ≠ 0) (pc : Int) :
    (hdqEval coeff deltaU resiDct scan cgStart firstNZ signbit lastNZ pc).1 < MAX_INT := by
  simp only [hdqEval, if_pos hnz]
  split_ifs with h1 h2
  · unfold MAX_INT; omega
  · exact absurd h2.1 hne
  · unfold MAX_INT; omega

/-- Summary of the HDQ candidate search on a group whose last non-zero index
differs from its first: a candidate `n ≤ start` is selected, its block
position is recorded in `minPos`, and `finalChange` is a `±1` consistent with
the selected level. -/
lemma hdq_candRun_good (coeff deltaU resiDct : List Int) (scan : List Nat)
    (cgStart firstNZ lastNZ start : Nat) (signbit : Int)
    (hstart : lastNZ ≤ start)
    (hnz : coeff.getD (scan.getD (lastNZ + cgStart) 0) 0 ≠ 0)
    (hne : lastNZ ≠ firstNZ) :
    ∃ n, n ≤ start ∧
      (candRun MAX_INT (fun n => scan.getD (n + cgStart) 0)
        (hdqEval coeff deltaU resiDct scan cgStart firstNZ signbit) start).minPos =
        ((scan.getD (n + cgStart) 0 : Nat) : Int) ∧
      ((candRun MAX_INT (fun n => scan.getD (n + cgStart) 0)
        (hdqEval coeff deltaU resiDct scan cgStart firstNZ signbit) start).finalChange = -1 ∨
       (candRun MAX_INT (fun n => scan.getD (n + cgStart) 0)
        (hdqEval coeff deltaU resiDct scan cgStart firstNZ signbit) start).finalChange = 1) ∧
      (coeff.getD (scan.getD (n + cgStart) 0) 0 = 0 →
        (candRun MAX_INT (fun n => scan.getD (n + cgStart) 0)
          (hdqEval coeff deltaU resiDct scan cgStart firstNZ signbit) start).finalChange = 1) := by
  have hhits := candRun_hits MAX_INT (fun n => scan.getD (n + cgStart) 0)
    (hdqEval coeff deltaU resiDct scan cgStart firstNZ signbit) start lastNZ hstart
    (hdqEval_lastNZ coeff deltaU resiDct scan cgStart firstNZ lastNZ signbit hne hnz)
  have hsel := candRun_sel MAX_INT (fun n => scan.getD (n + cgStart) 0)
    (hdqEval coeff deltaU resiDct scan cgStart firstNZ signbit) start
    (fun n ch => (ch = -1 ∨ ch = 1) ∧ (coeff.getD (scan.getD (n + cgStart) 0) 0 = 0 → ch = 1))
    (fun n _ pc hlt => hdqEval_sel coeff deltaU resiDct scan cgStart firstNZ signbit n pc hlt)
  obtain ⟨n, hle, hpos, hQ⟩ := hsel.1 hhits
  exact ⟨n, hle, hpos, hQ.1, hQ.2⟩

/-- One HDQ coding group preserves the three basic invariants: `numSig`
stays equal to the number of non-zero levels, levels stay sign-consistent
with the DCT coefficients, and the buffer length is unchanged. -/
lemma sbhProcessCG_inv (resiDct deltaU : List Int) (scan : List Nat) (numCoeff : Nat)
    (hscan : scan.Perm (List.range numCoeff))
    (cg : Nat) (hcg : cg * SCAN_SET_SIZE + SCAN_SET_SIZE ≤ numCoeff)
    (coeff : List Int) (numSig : Nat) (lastCG : Bool)
    (hlen : coeff.length = numCoeff)
    (hs : signOk resiDct coeff)
    (hn : numSig = countNZ coeff) :
    (sbhProcessCG resiDct deltaU scan cg coeff numSig lastCG).2.1 =
        countNZ (sbhProcessCG resiDct deltaU scan cg coeff numSig lastCG).1 ∧
      signOk resiDct (sbhProcessCG resiDct deltaU scan cg coeff numSig lastCG).1 ∧
      (sbhProcessCG resiDct deltaU scan cg coeff numSig lastCG).1.length = numCoeff := by
  unfold sbhProcessCG
  cases hfind : lastNZInCG coeff scan (cg * SCAN_SET_SIZE) with
  | none => exact ⟨hn, hs, hlen⟩
  | some lastNZ =>
    obtain ⟨hlt16, hnz⟩ := lastNZInCG_spec coeff scan _ lastNZ hfind
    dsimp only
    by_cases hthr : SBH_THRESHOLD ≤ (lastNZ : Int) -
        (firstNZInCG coeff scan (cg * SCAN_SET_SIZE) : Int)
    · rw [if_pos hthr]
      by_cases hpar : (if 0 < coeff.getD (scan.getD (cg * SCAN_SET_SIZE +
            firstNZInCG coeff scan (cg * SCAN_SET_SIZE)) 0) 0 then (0 : Int) else 1) ≠
          cgAbsSum coeff scan (cg * SCAN_SET_SIZE)
            (firstNZInCG coeff scan (cg * SCAN_SET_SIZE)) lastNZ % 2
      · rw [if_pos hpar]
        -- the group is modified: analyse the selected candidate
        have hne : lastNZ ≠ firstNZInCG coeff scan (cg * SCAN_SET_SIZE) := by
          unfold SBH_THRESHOLD at hthr
          omega
        have hstart : lastNZ ≤ (if lastCG then lastNZ else SCAN_SET_SIZE - 1) := by
          unfold SCAN_SET_SIZE at *
          split_ifs <;> omega
        obtain ⟨n, hle, hpos, hfc, hz⟩ := hdq_candRun_good coeff deltaU resiDct scan
          (cg * SCAN_SET_SIZE) (firstNZInCG coeff scan (cg * SCAN_SET_SIZE)) lastNZ
          (if lastCG then lastNZ else SCAN_SET_SIZE - 1)
          (if 0 < coeff.getD (scan.getD (cg * SCAN_SET_SIZE +
            firstNZInCG coeff scan (cg * SCAN_SET_SIZE)) 0) 0 then (0 : Int) else 1)
          hstart hnz hne
        set st := candRun MAX_INT (fun n => scan.getD (n + cg * SCAN_SET_SIZE) 0)
          (hdqEval coeff deltaU resiDct scan (cg * SCAN_SET_SIZE)
            (firstNZInCG coeff scan (cg * SCAN_SET_SIZE))
            (if 0 < coeff.getD (scan.getD (cg * SCAN_SET_SIZE +
              firstNZInCG coeff scan (cg * SCAN_SET_SIZE)) 0) 0 then (0 : Int) else 1))
          (if lastCG then lastNZ else SCAN_SET_SIZE - 1) with hstdef
        have htn : st.minPos.toNat = scan.getD (n + cg * SCAN_SET_SIZE) 0 := by
          rw [hpos]; exact Int.toNat_natCast _
        have hq : scan.getD (n + cg * SCAN_SET_SIZE) 0 < numCoeff := by
          refine scan_getD_lt scan numCoeff hscan _ ?_
          have hn16 : n < SCAN_SET_SIZE := by
            split_ifs at hle with hl
            · unfold SCAN_SET_SIZE at *; omega
            · unfold SCAN_SET_SIZE at *; omega
          unfold SCAN_SET_SIZE at *; omega
        have hp : st.minPos.toNat < coeff.length := by rw [htn, hlen]; exact hq
        rw [withFalse_fst, withFalse_snd]
        refine ⟨?_, ?_, ?_⟩
        · exact sbhApply_numSig resiDct coeff numSig st hp hfc (by rw [htn]; exact hz) hs hn
        · exact sbhApply_signOk resiDct coeff numSig st
            (by rcases hfc with h | h <;> [exact Or.inl h; exact Or.inr (Or.inr h)])
            (by rw [htn]; intro h0; rw [hz h0]; omega) hs
        · rw [sbhApply_length, hlen]
      · rw [if_neg hpar]; exact ⟨hn, hs, hlen⟩
    · rw [if_neg hthr]; exact ⟨hn, hs, hlen⟩

/-- The whole HDQ coding-group fold preserves the invariants. -/
lemma sbhFold_inv (resiDct deltaU : List Int) (scan : List Nat) (numCoeff : Nat)
    (hscan : scan.Perm (List.range numCoeff))
    (cgs : List Nat) (hcgs : ∀ cg ∈ cgs, cg * SCAN_SET_SIZE + SCAN_SET_SIZE ≤ numCoeff)
    (acc : List Int × Nat × Bool)
    (hlen : acc.1.length = numCoeff)
    (hs : signOk resiDct acc.1)
    (hn : acc.2.1 = countNZ acc.1) :
    (cgs.foldl (fun a cg => sbhProcessCG resiDct deltaU scan cg a.1 a.2.1 a.2.2) acc).2.1 =
        countNZ
          (cgs.foldl (fun a cg => sbhProcessCG resiDct deltaU scan cg a.1 a.2.1 a.2.2) acc).1 ∧
      signOk resiDct
        (cgs.foldl (fun a cg => sbhProcessCG resiDct deltaU scan cg a.1 a.2.1 a.2.2) acc).1 ∧
      (cgs.foldl (fun a cg => sbhProcessCG resiDct deltaU scan cg a.1 a.2.1 a.2.2)
        acc).1.length = numCoeff := by
  induction cgs generalizing acc with
  | nil => exact ⟨hn, hs, hlen⟩
  | cons a tl ih =>
    have hstep := sbhProcessCG_inv resiDct deltaU scan numCoeff hscan a
      (hcgs a (List.mem_cons_self a tl)) acc.1 acc.2.1 acc.2.2 hlen hs hn
    exact ih (fun cg h => hcgs cg (List.mem_cons_of_mem a h))
      (sbhProcessCG resiDct deltaU scan a acc.1 acc.2.1 acc.2.2)
      hstep.2.2 hstep.2.1 hstep.1

/-- The candidate evaluation of the RD sign-hiding pass always pairs the cost
with a `±1` change, `+1` whenever the candidate level is zero (this evaluation
has no stale branch: every path assigns `curChange`). -/
lemma rdsbhEval_sel (dstCoeff deltaU rateIncUp rateIncDown sigRateDelta resiDct : List Int)
    (scan : List Nat) (rdFactor : Int) (subPos firstNZ lastNZ : Nat) (lastCG : Bool)
    (signbit : Int) (n : Nat) (pc : Int) :
    ((rdsbhEval dstCoeff deltaU rateIncUp rateIncDown sigRateDelta resiDct scan rdFactor
        subPos firstNZ lastNZ lastCG signbit n pc).2 = -1 ∨
      (rdsbhEval dstCoeff deltaU rateIncUp rateIncDown sigRateDelta resiDct scan rdFactor
        subPos firstNZ lastNZ lastCG signbit n pc).2 = 1) ∧
      (dstCoeff.getD (scan.getD (n + subPos) 0) 0 = 0 →
        (rdsbhEval dstCoeff deltaU rateIncUp rateIncDown sigRateDelta resiDct scan rdFactor
          subPos firstNZ lastNZ lastCG signbit n pc).2 = 1) := by
  simp only [rdsbhEval]
  split_ifs <;> simp_all

/-- Shape helper: the nonzero-candidate cost selector stays below the ceiling
when the up-cost does and the first-non-zero veto does not apply. -/
lemma costPair_fst_lt (cU cD M : Int) (cond : Prop) [Decidable cond] (hcond : ¬cond)
    (hB : cU < M) :
    (if cU < cD then ((cU, 1) : Int × Int) else if cond then (M, -1) else (cD, -1)).1 < M := by
  by_cases h : cU < cD
  · rw [if_pos h]; exact hB
  · rw [if_neg h, if_neg hcond]
    exact lt_of_le_of_lt (not_lt.mp h) hB

/-- At the last non-zero index of a group with `lastNZ ≠ firstNZ` the RD
candidate cost is finite, provided the up-cost at that block position is below
`MAX_INT64` (true of the real inputs: `rdFactor`, `deltaU` and the rate deltas
are far below 2^63). -/
lemma rdsbhEval_lastNZ (dstCoeff deltaU rateIncUp rateIncDown sigRateDelta resiDct : List Int)
    (scan : List Nat) (rdFactor : Int) (subPos firstNZ lastNZ : Nat) (lastCG : Bool)
    (signbit : Int)
    (hne : lastNZ ≠ firstNZ)
    (hnz : dstCoeff.getD (scan.getD (lastNZ + subPos) 0) 0 ≠ 0)
    (hB : rdFactor * (-(deltaU.getD (scan.getD (lastNZ + subPos) 0) 0)) +
      rateIncUp.getD (scan.getD (lastNZ + subPos) 0) 0 < MAX_INT64) (pc : Int) :
    (rdsbhEval dstCoeff deltaU rateIncUp rateIncDown sigRateDelta resiDct scan rdFactor
      subPos firstNZ lastNZ lastCG signbit lastNZ pc).1 < MAX_INT64 := by
  simp only [rdsbhEval, if_pos hnz]
  exact costPair_fst_lt _ _ _ _ (fun h => hne h.1) hB

/-- Summary of the RD candidate search on a group whose last non-zero index
differs from its first. -/
lemma rdsbh_candRun_good (dstCoeff deltaU rateIncUp rateIncDown sigRateDelta resiDct :
      List Int) (scan : List Nat) (rdFactor : Int) (subPos firstNZ lastNZ start : Nat)
    (lastCG : Bool) (signbit : Int)
    (hstart : lastNZ ≤ start)
    (hnz : dstCoeff.getD (scan.getD (lastNZ + subPos) 0) 0 ≠ 0)
    (hne : lastNZ ≠ firstNZ)
    (hB : rdFactor * (-(deltaU.getD (scan.getD (lastNZ + subPos) 0) 0)) +
      rateIncUp.getD (scan.getD (lastNZ + subPos) 0) 0 < MAX_INT64) :
    ∃ n, n ≤ start ∧
      (candRun MAX_INT64 (fun n => scan.getD (n + subPos) 0)
        (rdsbhEval dstCoeff deltaU rateIncUp rateIncDown sigRateDelta resiDct scan rdFactor
          subPos firstNZ lastNZ lastCG signbit) start).minPos =
        ((scan.getD (n + subPos) 0 : Nat) : Int) ∧
      ((candRun MAX_INT64 (fun n => scan.getD (n + subPos) 0)
        (rdsbhEval dstCoeff deltaU rateIncUp rateIncDown sigRateDelta resiDct scan rdFactor
          subPos firstNZ lastNZ lastCG signbit) start).finalChange = -1 ∨
       (candRun MAX_INT64 (fun n => scan.getD (n + subPos) 0)
        (rdsbhEval dstCoeff deltaU rateIncUp rateIncDown sigRateDelta resiDct scan rdFactor
          subPos firstNZ lastNZ lastCG signbit) start).finalChange = 1) ∧
      (dstCoeff.getD (scan.getD (n + subPos) 0) 0 = 0 →
        (candRun MAX_INT64 (fun n => scan.getD (n + subPos) 0)
          (rdsbhEval dstCoeff deltaU rateIncUp rateIncDown sigRateDelta resiDct scan rdFactor
            subPos firstNZ lastNZ lastCG signbit) start).finalChange = 1) := by
  have hhits := candRun_hits MAX_INT64 (fun n => scan.getD (n + subPos) 0)
    (rdsbhEval dstCoeff deltaU rateIncUp rateIncDown sigRateDelta resiDct scan rdFactor
      subPos firstNZ lastNZ lastCG signbit) start lastNZ hstart
    (rdsbhEval_lastNZ dstCoeff deltaU rateIncUp rateIncDown sigRateDelta resiDct scan rdFactor
      subPos firstNZ lastNZ lastCG signbit hne hnz hB)
  have hsel := candRun_sel MAX_INT64 (fun n => scan.getD (n + subPos) 0)
    (rdsbhEval dstCoeff deltaU rateIncUp rateIncDown sigRateDelta resiDct scan rdFactor
      subPos firstNZ lastNZ lastCG signbit) start
    (fun n ch => (ch = -1 ∨ ch = 1) ∧ (dstCoeff.getD (scan.getD (n + subPos) 0) 0 = 0 → ch = 1))
    (fun n _ pc _ => rdsbhEval_sel dstCoeff deltaU rateIncUp rateIncDown sigRateDelta resiDct
      scan rdFactor subPos firstNZ lastNZ lastCG signbit n pc)
  obtain ⟨n, hle, hpos, hQ⟩ := hsel.1 hhits
  exact ⟨n, hle, hpos, hQ.1, hQ.2⟩

/-- One RD sign-hiding coding group preserves the invariants (`numSig` equals
the non-zero count, sign consistency, length). -/
lemma rdsbhProcessCG_inv (resiDct deltaU rateIncUp rateIncDown sigRateDelta : List Int)
    (scan : List Nat) (rdFactor : Int) (numCoeff : Nat)
    (hscan : scan.Perm (List.range numCoeff))
    (hRd : ∀ blk, blk < numCoeff →
      rdFactor * (-(deltaU.getD blk 0)) + rateIncUp.getD blk 0 < MAX_INT64)
    (subSet : Nat) (hcg : subSet * SCAN_SET_SIZE + SCAN_SET_SIZE ≤ numCoeff)
    (dstCoeff : List Int) (numSig : Nat) (lastCG : Bool)
    (hlen : dstCoeff.length = numCoeff)
    (hs : signOk resiDct dstCoeff)
    (hn : numSig = countNZ dstCoeff) :
    (rdsbhProcessCG resiDct deltaU rateIncUp rateIncDown sigRateDelta scan rdFactor subSet
        dstCoeff numSig lastCG).2.1 =
        countNZ (rdsbhProcessCG resiDct deltaU rateIncUp rateIncDown sigRateDelta scan rdFactor
          subSet dstCoeff numSig lastCG).1 ∧
      signOk resiDct (rdsbhProcessCG resiDct deltaU rateIncUp rateIncDown sigRateDelta scan
        rdFactor subSet dstCoeff numSig lastCG).1 ∧
      (rdsbhProcessCG resiDct deltaU rateIncUp rateIncDown sigRateDelta scan rdFactor subSet
        dstCoeff numSig lastCG).1.length = numCoeff := by
  unfold rdsbhProcessCG
  cases hfind : lastNZInCG dstCoeff scan (subSet * SCAN_SET_SIZE) with
  | none => exact ⟨hn, hs, hlen⟩
  | some lastNZ =>
    obtain ⟨hlt16, hnz⟩ := lastNZInCG_spec dstCoeff scan _ lastNZ hfind
    dsimp only
    by_cases hthr : SBH_THRESHOLD ≤ (lastNZ : Int) -
        (firstNZInCG dstCoeff scan (subSet * SCAN_SET_SIZE) : Int)
    · rw [if_pos hthr]
      by_cases hpar : (if 0 < dstCoeff.getD (scan.getD (subSet * SCAN_SET_SIZE +
            firstNZInCG dstCoeff scan (subSet * SCAN_SET_SIZE)) 0) 0 then (0 : Int) else 1) ≠
          cgAbsSum dstCoeff scan (subSet * SCAN_SET_SIZE)
            (firstNZInCG dstCoeff scan (subSet * SCAN_SET_SIZE)) lastNZ % 2
      · rw [if_pos hpar]
        have hne : lastNZ ≠ firstNZInCG dstCoeff scan (subSet * SCAN_SET_SIZE) := by
          unfold SBH_THRESHOLD at hthr
          omega
        have hstart : lastNZ ≤ (if lastCG then lastNZ else SCAN_SET_SIZE - 1) := by
          unfold SCAN_SET_SIZE at *
          split_ifs <;> omega
        have hblk : scan.getD (lastNZ + subSet * SCAN_SET_SIZE) 0 < numCoeff := by
          refine scan_getD_lt scan numCoeff hscan _ ?_
          unfold SCAN_SET_SIZE at *; omega
        obtain ⟨n, hle, hpos, hfc, hz⟩ := rdsbh_candRun_good dstCoeff deltaU rateIncUp
          rateIncDown sigRateDelta resiDct scan rdFactor (subSet * SCAN_SET_SIZE)
          (firstNZInCG dstCoeff scan (subSet * SCAN_SET_SIZE)) lastNZ
          (if lastCG then lastNZ else SCAN_SET_SIZE - 1) lastCG
          (if 0 < dstCoeff.getD (scan.getD (subSet * SCAN_SET_SIZE +
            firstNZInCG dstCoeff scan (subSet * SCAN_SET_SIZE)) 0) 0 then (0 : Int) else 1)
          hstart hnz hne (hRd _ hblk)
        set st := candRun MAX_INT64 (fun n => scan.getD (n + subSet * SCAN_SET_SIZE) 0)
          (rdsbhEval dstCoeff deltaU rateIncUp rateIncDown sigRateDelta resiDct scan rdFactor
            (subSet * SCAN_SET_SIZE) (firstNZInCG dstCoeff scan (subSet * SCAN_SET_SIZE))
            lastNZ lastCG
            (if 0 < dstCoeff.getD (scan.getD (subSet * SCAN_SET_SIZE +
              firstNZInCG dstCoeff scan (subSet * SCAN_SET_SIZE)) 0) 0 then (0 : Int) else 1))
          (if lastCG then lastNZ else SCAN_SET_SIZE - 1) with hstdef
        have htn : st.minPos.toNat = scan.getD (n + subSet * SCAN_SET_SIZE) 0 := by
          rw [hpos]; exact Int.toNat_natCast _
        have hq : scan.getD (n + subSet * SCAN_SET_SIZE) 0 < numCoeff := by
          refine scan_getD_lt scan numCoeff hscan _ ?_
          have hn16 : n < SCAN_SET_SIZE := by
            split_ifs at hle with hl
            · unfold SCAN_SET_SIZE at *; omega
            · unfold SCAN_SET_SIZE at *; omega
          unfold SCAN_SET_SIZE at *; omega
        have hp : st.minPos.toNat < dstCoeff.length := by rw [htn, hlen]; exact hq
        rw [withFalse_fst, withFalse_snd]
        refine ⟨?_, ?_, ?_⟩
        · exact sbhApply_numSig resiDct dstCoeff numSig st hp hfc (by rw [htn]; exact hz) hs hn
        · exact sbhApply_signOk resiDct dstCoeff numSig st
            (by rcases hfc with h | h <;> [exact Or.inl h; exact Or.inr (Or.inr h)])
            (by rw [htn]; intro h0; rw [hz h0]; omega) hs
        · rw [sbhApply_length, hlen]
      · rw [if_neg hpar]; exact ⟨hn, hs, hlen⟩
    · rw [if_neg hthr]; exact ⟨hn, hs, hlen⟩

/-- The whole RD sign-hiding coding-group fold preserves the invariants. -/
lemma rdsbhFold_inv (resiDct deltaU rateIncUp rateIncDown sigRateDelta : List Int)
    (scan : List Nat) (rdFactor : Int) (numCoeff : Nat)
    (hscan : scan.Perm (List.range numCoeff))
    (hRd : ∀ blk, blk < numCoeff →
      rdFactor * (-(deltaU.getD blk 0)) + rateIncUp.getD blk 0 < MAX_INT64)
    (cgs : List Nat) (hcgs : ∀ cg ∈ cgs, cg * SCAN_SET_SIZE + SCAN_SET_SIZE ≤ numCoeff)
    (acc : List Int × Nat × Bool)
    (hlen : acc.1.length = numCoeff)
    (hs : signOk resiDct acc.1)
    (hn : acc.2.1 = countNZ acc.1) :
    (cgs.foldl (fun a s => rdsbhProcessCG resiDct deltaU rateIncUp rateIncDown sigRateDelta
        scan rdFactor s a.1 a.2.1 a.2.2) acc).2.1 =
        countNZ (cgs.foldl (fun a s => rdsbhProcessCG resiDct deltaU rateIncUp rateIncDown
          sigRateDelta scan rdFactor s a.1 a.2.1 a.2.2) acc).1 ∧
      signOk resiDct (cgs.foldl (fun a s => rdsbhProcessCG resiDct deltaU rateIncUp rateIncDown
        sigRateDelta scan rdFactor s a.1 a.2.1 a.2.2) acc).1 ∧
      (cgs.foldl (fun a s => rdsbhProcessCG resiDct deltaU rateIncUp rateIncDown sigRateDelta
        scan rdFactor s a.1 a.2.1 a.2.2) acc).1.length = numCoeff := by
  induction cgs generalizing acc with
  | nil => exact ⟨hn, hs, hlen⟩
  | cons a tl ih =>
    have hstep := rdsbhProcessCG_inv resiDct deltaU rateIncUp rateIncDown sigRateDelta scan
      rdFactor numCoeff hscan hRd a (hcgs a (List.mem_cons_self a tl)) acc.1 acc.2.1 acc.2.2
      hlen hs hn
    exact ih (fun cg h => hcgs cg (List.mem_cons_of_mem a h))
      (rdsbhProcessCG resiDct deltaU rateIncUp rateIncDown sigRateDelta scan rdFactor a
        acc.1 acc.2.1 acc.2.2)
      hstep.2.2 hstep.2.1 hstep.1

/-!  ## The final phase of `Quant::rdoQuant` -/

lemma range_split (n B : Nat) (h : B ≤ n) :
    List.range n = List.range B ++ List.range' B (n - B) := by
  rw [List.range_eq_range', List.range_eq_range']
  have h2 := List.range'_append 0 B (n - B) 1
  simp only [one_mul, zero_add] at h2
  rw [h2]
  congr 1
  omega

/-- Counting through the index list: `countP` of a list equals `countP` over
its index range reading `getD`. -/
lemma countP_range_getD {α : Type} (d : α) (p : α → Bool) (l : List α) :
    l.countP p = (List.range l.length).countP (fun i => p (l.getD i d)) := by
  induction l using List.reverseRecOn with
  | nil => rfl
  | append_singleton l' a ih =>
    rw [List.countP_append, List.length_append, List.length_singleton, List.range_succ,
      List.countP_append]
    congr 1
    · rw [ih]
      refine List.countP_congr ?_
      intro i hi
      rw [List.getD_append _ _ _ _ (List.mem_range.mp hi)]
    · have hget : (l' ++ [a]).getD l'.length d = a := by
        rw [List.getD_eq_getElem _ _ (by simp)]
        exact List.getElem_concat_length _ _ _ rfl _
      simp [List.countP_cons, hget]

lemma countNZ_eq_countP_range (l : List Int) :
    countNZ l = (List.range l.length).countP (fun i => decide (l.getD i 0 ≠ 0)) :=
  countP_range_getD 0 _ l

/-- Reindexing a count through the scan permutation. -/
lemma countNZ_eq_scan_count (scan : List Nat) (numCoeff : Nat)
    (hscan : scan.Perm (List.range numCoeff)) (l : List Int) (hlen : l.length = numCoeff) :
    countNZ l =
      (List.range numCoeff).countP (fun pos => decide (l.getD (scan.getD pos 0) 0 ≠ 0)) := by
  rw [countNZ_eq_countP_range, hlen]
  have h1 : (List.range numCoeff).countP (fun i => decide (l.getD i 0 ≠ 0)) =
      scan.countP (fun i => decide (l.getD i 0 ≠ 0)) :=
    (hscan.countP_eq _).symm
  rw [h1, countP_range_getD 0, scan_length scan numCoeff hscan]

lemma sgnApply_ne_zero (d v : Int) : sgnApply d v ≠ 0 ↔ v ≠ 0 := by
  unfold sgnApply
  split_ifs <;> omega

lemma rdoRecountStep_fst (resiDct : List Int) (scan : List Nat) (acc : List Int × Nat)
    (pos : Nat) : (rdoRecountStep resiDct scan acc pos).1 =
      acc.1.set (scan.getD pos 0)
        (sgnApply (resiDct.getD (scan.getD pos 0) 0) (acc.1.getD (scan.getD pos 0) 0)) := rfl

lemma rdoRecountStep_snd (resiDct : List Int) (scan : List Nat) (acc : List Int × Nat)
    (pos : Nat) : (rdoRecountStep resiDct scan acc pos).2 =
      acc.2 + (if acc.1.getD (scan.getD pos 0) 0 ≠ 0 then 1 else 0) := rfl

lemma rdoCleanStep_eq (scan : List Nat) (c : List Int) (pos : Nat) :
    rdoCleanStep scan c pos = c.set (scan.getD pos 0) 0 := rfl

/-- The recount loop (scan positions `0 ≤ pos < B`): every visited position
carries the sign-applied input level afterwards, every other position is
untouched, and the accumulated count is the number of non-zero input levels
among the visited positions. -/
lemma rdoRecount_spec (resiDct : List Int) (scan : List Nat) (numCoeff : Nat)
    (hscan : scan.Perm (List.range numCoeff))
    (dstCoeff : List Int) (hlen : dstCoeff.length = numCoeff)
    (B : Nat) (hB : B ≤ numCoeff) :
    (∀ pos, pos < B →
      ((List.range B).foldl (rdoRecountStep resiDct scan) (dstCoeff, 0)).1.getD
          (scan.getD pos 0) 0 =
        sgnApply (resiDct.getD (scan.getD pos 0) 0) (dstCoeff.getD (scan.getD pos 0) 0)) ∧
    (∀ pos, B ≤ pos → pos < numCoeff →
      ((List.range B).foldl (rdoRecountStep resiDct scan) (dstCoeff, 0)).1.getD
          (scan.getD pos 0) 0 = dstCoeff.getD (scan.getD pos 0) 0) ∧
    ((List.range B).foldl (rdoRecountStep resiDct scan) (dstCoeff, 0)).2 =
      (List.range B).countP (fun pos => decide (dstCoeff.getD (scan.getD pos 0) 0 ≠ 0)) ∧
    ((List.range B).foldl (rdoRecountStep resiDct scan) (dstCoeff, 0)).1.length = numCoeff := by
  induction B with
  | zero =>
    refine ⟨fun pos h => absurd h (Nat.not_lt_zero pos), fun pos _ _ => rfl, rfl, hlen⟩
  | succ B ih =>
    have hB' : B ≤ numCoeff := le_of_lt (Nat.lt_of_succ_le hB)
    obtain ⟨ih1, ih2, ih3, ih4⟩ := ih hB'
    have hstep : (List.range (B + 1)).foldl (rdoRecountStep resiDct scan) (dstCoeff, 0) =
        rdoRecountStep resiDct scan
          ((List.range B).foldl (rdoRecountStep resiDct scan) (dstCoeff, 0)) B := by
      rw [List.range_succ, List.foldl_append]
      rfl
    have hBlt : B < numCoeff := Nat.lt_of_succ_le hB
    have hrd : ((List.range B).foldl (rdoRecountStep resiDct scan) (dstCoeff, 0)).1.getD
        (scan.getD B 0) 0 = dstCoeff.getD (scan.getD B 0) 0 := ih2 B (le_refl B) hBlt
    have hqB : scan.getD B 0 < numCoeff := scan_getD_lt scan numCoeff hscan B hBlt
    refine ⟨?_, ?_, ?_, ?_⟩
    · intro pos hpos
      rw [hstep, rdoRecountStep_fst]
      rcases Nat.lt_or_ge pos B with h | h
      · have hne : scan.getD pos 0 ≠ scan.getD B 0 := by
          intro he
          exact absurd (scan_getD_inj scan numCoeff hscan pos B (by omega) hBlt he) (by omega)
        rw [getD_set_ne _ _ _ _ hne]
        exact ih1 pos h
      · have hpeq : pos = B := by omega
        subst hpeq
        rw [getD_set_self' _ _ _ (by rw [ih4]; exact hqB), hrd]
    · intro pos hpos hposn
      rw [hstep, rdoRecountStep_fst]
      have hne : scan.getD pos 0 ≠ scan.getD B 0 := by
        intro he
        exact absurd (scan_getD_inj scan numCoeff hscan pos B hposn hBlt he) (by omega)
      rw [getD_set_ne _ _ _ _ hne]
      exact ih2 pos (by omega) hposn
    · rw [hstep, rdoRecountStep_snd]
      rw [List.range_succ, List.countP_append, ih3, hrd]
      simp only [List.countP_cons, List.countP_nil]
      by_cases h0 : dstCoeff.getD (scan.getD B 0) 0 = 0 <;> simp [h0]
    · rw [hstep, rdoRecountStep_fst, List.length_set]
      exact ih4

/-- The cleanup loop zeroes exactly the scan positions `b ≤ pos < b + k`. -/
lemma rdoClean_spec (scan : List Nat) (numCoeff : Nat)
    (hscan : scan.Perm (List.range numCoeff)) (b k : Nat) (hbk : b + k ≤ numCoeff) :
    ∀ c : List Int, c.length = numCoeff →
      (∀ pos, pos < numCoeff →
        ((List.range' b k).foldl (rdoCleanStep scan) c).getD (scan.getD pos 0) 0 =
          if b ≤ pos ∧ pos < b + k then 0 else c.getD (scan.getD pos 0) 0) ∧
      ((List.range' b k).foldl (rdoCleanStep scan) c).length = numCoeff := by
  induction k generalizing b with
  | zero =>
    intro c hc
    refine ⟨fun pos _ => ?_, hc⟩
    rw [if_neg (by omega)]
    rfl
  | succ k ih =>
    intro c hc
    rw [List.range'_succ]
    have hbn : b < numCoeff := by omega
    have hqb : scan.getD b 0 < numCoeff := scan_getD_lt scan numCoeff hscan b hbn
    have hstep : List.foldl (rdoCleanStep scan) c (b :: List.range' (b + 1) k) =
        List.foldl (rdoCleanStep scan) (rdoCleanStep scan c b) (List.range' (b + 1) k) := rfl
    rw [hstep]
    obtain ⟨ihg, ihl⟩ := ih (b + 1) (by omega) (rdoCleanStep scan c b)
      (by rw [rdoCleanStep_eq, List.length_set]; exact hc)
    refine ⟨fun pos hpos => ?_, ihl⟩
    rw [ihg pos hpos]
    rcases Nat.lt_or_ge pos (b + 1) with h | h
    · rcases Nat.lt_or_ge pos b with h2 | h2
      · rw [if_neg (by omega), if_neg (by omega), rdoCleanStep_eq]
        have hne : scan.getD pos 0 ≠ scan.getD b 0 := by
          intro he
          exact absurd (scan_getD_inj scan numCoeff hscan pos b hpos hbn he) (by omega)
        rw [getD_set_ne _ _ _ _ hne]
      · have hpeq : pos = b := by omega
        subst hpeq
        rw [if_neg (by omega), if_pos (by omega), rdoCleanStep_eq]
        rw [getD_set_self' _ _ _ (by rw [hc]; exact hqb)]
    · rcases Nat.lt_or_ge pos (b + 1 + k) with h2 | h2
      · rw [if_pos (by omega), if_pos (by omega)]
      · rw [if_neg (by omega), if_neg (by omega), rdoCleanStep_eq]
        have hne : scan.getD pos 0 ≠ scan.getD b 0 := by
          intro he
          exact absurd (scan_getD_inj scan numCoeff hscan pos b hpos hbn he) (by omega)
        rw [getD_set_ne _ _ _ _ hne]

/-- Characterization of `rdoFinalize`: positions before `bestLastIdx` carry
the sign-applied input level, positions from `bestLastIdx` through
`lastScanPos` are zero, later positions are untouched; the returned count is
the number of non-zero input levels before `bestLastIdx`. -/
lemma rdoFinalize_spec (resiDct : List Int) (scan : List Nat) (dstCoeff : List Int)
    (B L numCoeff : Nat) (hscan : scan.Perm (List.range numCoeff))
    (hB : B ≤ L + 1) (hL : L < numCoeff) (hlen : dstCoeff.length = numCoeff) :
    (∀ pos, pos < numCoeff →
      (rdoFinalize resiDct scan dstCoeff B L).1.getD (scan.getD pos 0) 0 =
        if pos < B then
          sgnApply (resiDct.getD (scan.getD pos 0) 0) (dstCoeff.getD (scan.getD pos 0) 0)
        else if pos ≤ L then 0 else dstCoeff.getD (scan.getD pos 0) 0) ∧
    (rdoFinalize resiDct scan dstCoeff B L).2 =
      (List.range B).countP (fun pos => decide (dstCoeff.getD (scan.getD pos 0) 0 ≠ 0)) ∧
    (rdoFinalize resiDct scan dstCoeff B L).1.length = numCoeff := by
  have hBn : B ≤ numCoeff := by omega
  obtain ⟨hr1, hr2, hr3, hr4⟩ := rdoRecount_spec resiDct scan numCoeff hscan dstCoeff hlen B hBn
  obtain ⟨hcg, hcl⟩ := rdoClean_spec scan numCoeff hscan B (L + 1 - B) (by omega)
    ((List.range B).foldl (rdoRecountStep resiDct scan) (dstCoeff, 0)).1 hr4
  refine ⟨fun pos hpos => ?_, hr3, hcl⟩
  show (((List.range' B (L + 1 - B)).foldl (rdoCleanStep scan)
    ((List.range B).foldl (rdoRecountStep resiDct scan) (dstCoeff, 0)).1).getD
      (scan.getD pos 0) 0) = _
  rw [hcg pos hpos]
  rcases Nat.lt_or_ge pos B with h | h
  · rw [if_neg (by omega), if_pos h]
    exact hr1 pos h
  · rcases Nat.lt_or_ge pos (L + 1) with h2 | h2
    · rw [if_pos (by omega), if_neg (by omega), if_pos (by omega)]
    · rw [if_neg (by omega), if_neg (by omega), if_neg (by omega)]
      exact hr2 pos h hpos

/-- After `rdoFinalize`, the returned count is exactly the number of non-zero
output levels, provided the input levels above `lastScanPos` were zero
(`lastScanPos` is by construction the highest reverse-scan index holding a
non-zero level of the initial quantization). -/
lemma rdoFinalize_numSig (resiDct : List Int) (scan : List Nat) (dstCoeff : List Int)
    (B L numCoeff : Nat) (hscan : scan.Perm (List.range numCoeff))
    (hB : B ≤ L + 1) (hL : L < numCoeff) (hlen : dstCoeff.length = numCoeff)
    (hzero : ∀ pos, L < pos → pos < numCoeff → dstCoeff.getD (scan.getD pos 0) 0 = 0) :
    (rdoFinalize resiDct scan dstCoeff B L).2 =
      countNZ (rdoFinalize resiDct scan dstCoeff B L).1 := by
  obtain ⟨hg, hc, hl⟩ := rdoFinalize_spec resiDct scan dstCoeff B L numCoeff hscan hB hL hlen
  rw [hc, countNZ_eq_scan_count scan numCoeff hscan _ hl]
  rw [range_split numCoeff B (by omega), List.countP_append]
  have htail : (List.range' B (numCoeff - B)).countP
      (fun pos => decide ((rdoFinalize resiDct scan dstCoeff B L).1.getD
        (scan.getD pos 0) 0 ≠ 0)) = 0 := by
    rw [List.countP_eq_zero]
    intro pos hmem
    have hpr := List.mem_range'_1.mp hmem
    rw [hg pos (by omega), if_neg (by omega)]
    by_cases h2 : pos ≤ L
    · rw [if_pos h2]; simp
    · rw [if_neg h2, hzero pos (by omega) (by omega)]
      simp
  rw [htail, Nat.add_zero]
  refine (List.countP_congr ?_).symm
  intro pos hmem
  have hpB := List.mem_range.mp hmem
  rw [hg pos (by omega), if_pos hpB]
  simp [sgnApply_ne_zero]

/-- After `rdoFinalize`, every level at reverse-scan position `≥ bestLastIdx`
is zero. -/
lemma rdoFinalize_tail_zero (resiDct : List Int) (scan : List Nat) (dstCoeff : List Int)
    (B L numCoeff : Nat) (hscan : scan.Perm (List.range numCoeff))
    (hB : B ≤ L + 1) (hL : L < numCoeff) (hlen : dstCoeff.length = numCoeff)
    (hzero : ∀ pos, L < pos → pos < numCoeff → dstCoeff.getD (scan.getD pos 0) 0 = 0) :
    ∀ pos, B ≤ pos → pos < numCoeff →
      (rdoFinalize resiDct scan dstCoeff B L).1.getD (scan.getD pos 0) 0 = 0 := by
  intro pos hge hlt
  obtain ⟨hg, _, _⟩ := rdoFinalize_spec resiDct scan dstCoeff B L numCoeff hscan hB hL hlen
  rw [hg pos hlt, if_neg (by omega)]
  by_cases h2 : pos ≤ L
  · rw [if_pos h2]
  · rw [if_neg h2]
    exact hzero pos (by omega) hlt

/-- After `rdoFinalize`, the level at reverse-scan position `bestLastIdx - 1`
is non-zero whenever the input level there was (the last-position search only
selects positions holding a non-zero level). -/
lemma rdoFinalize_last_nonzero (resiDct : List Int) (scan : List Nat) (dstCoeff : List Int)
    (B L numCoeff : Nat) (hscan : scan.Perm (List.range numCoeff))
    (hB : B ≤ L + 1) (hL : L < numCoeff) (hlen : dstCoeff.length = numCoeff)
    (hB0 : 0 < B) (hnzB : dstCoeff.getD (scan.getD (B - 1) 0) 0 ≠ 0) :
    (rdoFinalize resiDct scan dstCoeff B L).1.getD (scan.getD (B - 1) 0) 0 ≠ 0 := by
  obtain ⟨hg, _, _⟩ := rdoFinalize_spec resiDct scan dstCoeff B L numCoeff hscan hB hL hlen
  rw [hg (B - 1) (by omega), if_pos (by omega)]
  exact (sgnApply_ne_zero _ _).mpr hnzB

/-- `rdoFinalize` output is sign-consistent with the DCT coefficients: the
initial quantization produces non-negative (absolute) levels, zero wherever
the DCT coefficient is zero, and the recount loop applies the DCT sign. -/
lemma rdoFinalize_signOk (resiDct : List Int) (scan : List Nat) (dstCoeff : List Int)
    (B L numCoeff : Nat) (hscan : scan.Perm (List.range numCoeff))
    (hB : B ≤ L + 1) (hL : L < numCoeff) (hlen : dstCoeff.length = numCoeff)
    (hzero : ∀ pos, L < pos → pos < numCoeff → dstCoeff.getD (scan.getD pos 0) 0 = 0)
    (hpos : ∀ p, 0 ≤ dstCoeff.getD p 0)
    (hdz : ∀ p, resiDct.getD p 0 = 0 → dstCoeff.getD p 0 = 0) :
    signOk resiDct (rdoFinalize resiDct scan dstCoeff B L).1 := by
  obtain ⟨hg, _, hl⟩ := rdoFinalize_spec resiDct scan dstCoeff B L numCoeff hscan hB hL hlen
  intro p
  by_cases hp : p < numCoeff
  · obtain ⟨pos, hposlt, hpe⟩ := scan_surj scan numCoeff hscan p hp
    rw [← hpe]
    rw [hg pos hposlt]
    rcases Nat.lt_or_ge pos B with h | h
    · rw [if_pos h]
      unfold sgnApply
      have hv := hpos (scan.getD pos 0)
      have hz := hdz (scan.getD pos 0)
      split_ifs with hd
      · constructor <;> intro <;> omega
      · constructor <;> intro <;> omega
    · rw [if_neg (by omega)]
      by_cases h2 : pos ≤ L
      · rw [if_pos h2]
        exact ⟨fun h => absurd h (lt_irrefl 0), fun h => absurd h (lt_irrefl 0)⟩
      · rw [if_neg h2, hzero pos (by omega) hposlt]
        exact ⟨fun h => absurd h (lt_irrefl 0), fun h => absurd h (lt_irrefl 0)⟩
  · rw [List.getD_eq_default _ _ (by omega : (rdoFinalize resiDct scan dstCoeff B L).1.length ≤ p)]
    exact ⟨fun h => absurd h (lt_irrefl 0), fun h => absurd h (lt_irrefl 0)⟩

/-!  ## The scalar quantizer on whole blocks -/

/-- A level is zero exactly when its absolute level is zero: re-applying the
sign and clamping to `[-32768, 32767]` keep a non-zero value non-zero. -/
lemma quantOne_ne_zero_iff (qc add : Int) (qbits : Nat) (c : Int) :
    quantOne qc add qbits c ≠ 0 ↔ quantLevel qc add qbits c ≠ 0 := by
  unfold quantOne Clip3
  rcases lt_trichotomy (quantLevel qc add qbits c) 0 with h | h | h
  · rcases lt_or_le c 0 with hc | hc <;> simp only [if_pos hc, if_neg (not_lt.mpr hc)] <;>
      constructor <;> intro _ <;> omega
  · simp [h]
  · rcases lt_or_le c 0 with hc | hc <;> simp only [if_pos hc, if_neg (not_lt.mpr hc)] <;>
      constructor <;> intro _ <;> omega

/-- The absolute level is non-negative when the quantization coefficient and
rounding offset are (the real scaling lists and offsets are). -/
lemma quantLevel_nonneg (qc add : Int) (qbits : Nat) (c : Int)
    (hqc : 0 ≤ qc) (hadd : 0 ≤ add) : 0 ≤ quantLevel qc add qbits c :=
  Int.ediv_nonneg (by positivity) (by positivity)

/-- A zero input coefficient quantizes to level zero whenever the rounding
offset is below `1 << qbits` (both real offsets, `171 << (qbits-9)` and
`85 << (qbits-9)`, are). -/
lemma quantLevel_zero (qc add : Int) (qbits : Nat)
    (hadd : 0 ≤ add) (hadd2 : add < 2 ^ qbits) : quantLevel qc add qbits 0 = 0 := by
  unfold quantLevel asr
  simpa using Int.ediv_eq_zero_of_lt hadd hadd2

/-- A zero input coefficient yields a zero output level (the rounding offset
alone never reaches `1 << qbits`). -/
lemma quantOne_zero (qc add : Int) (qbits : Nat) (hadd : 0 ≤ add) (hadd2 : add < 2 ^ qbits) :
    quantOne qc add qbits 0 = 0 := by
  unfold quantOne
  rw [quantLevel_zero qc add qbits hadd hadd2]
  simp [Clip3]

/-- Sign preservation of the scalar quantizer: a non-zero output level has
the sign of its input DCT coefficient. -/
lemma quantOne_sign (qc add : Int) (qbits : Nat) (c : Int)
    (hqc : 0 ≤ qc) (hadd : 0 ≤ add) (hadd2 : add < 2 ^ qbits)
    (h : quantOne qc add qbits c ≠ 0) :
    0 < quantOne qc add qbits c ↔ 0 < c := by
  have hlvl0 := (quantOne_ne_zero_iff qc add qbits c).mp h
  have hnn := quantLevel_nonneg qc add qbits c hqc hadd
  have hlvl : 0 < quantLevel qc add qbits c := lt_of_le_of_ne hnn (Ne.symm hlvl0)
  have hc : c ≠ 0 := by
    intro hc0
    rw [hc0, quantLevel_zero qc add qbits hadd hadd2] at hlvl
    exact lt_irrefl 0 hlvl
  unfold quantOne Clip3
  rcases lt_or_le c 0 with hcneg | hcpos
  · simp only [if_pos hcneg]
    constructor
    · intro hpos; omega
    · intro hpos; omega
  · have : 0 < c := lt_of_le_of_ne hcpos (Ne.symm hc)
    simp only [if_neg (not_lt.mpr hcpos)]
    constructor
    · intro _; exact this
    · intro _; omega

/-- The `numSig` returned by the scalar quantizer counts exactly the non-zero
output levels. -/
lemma quantNumSig_eq_countNZ (qcs : List Int) (add : Int) (qbits : Nat) (coefs : List Int) :
    quantNumSig qcs add qbits coefs = countNZ (quantBlock qcs add qbits coefs) := by
  unfold quantNumSig quantBlock countNZ
  induction coefs generalizing qcs with
  | nil => rfl
  | cons c tl ih =>
    cases qcs with
    | nil => rfl
    | cons qc qtl =>
      simp only [List.zipWith_cons_cons, List.countP_cons]
      rw [ih qtl]
      by_cases h : quantLevel qc add qbits c ≠ 0
      · rw [if_pos (by simpa using h),
          if_pos (by simpa using (quantOne_ne_zero_iff qc add qbits c).mpr h)]
      · have h1 : quantOne qc add qbits c = 0 := by
          by_contra hne
          exact h ((quantOne_ne_zero_iff qc add qbits c).mp hne)
        rw [if_neg (by simpa using h), if_neg (by simp [h1])]

/-- Element access of the scalar quantizer's output. -/
lemma quantBlock_getD (qcs : List Int) (add : Int) (qbits : Nat) (coefs : List Int)
    (i : Nat) (hi : i < coefs.length) (hi2 : i < qcs.length) :
    (quantBlock qcs add qbits coefs).getD i 0 =
      quantOne (qcs.getD i 0) add qbits (coefs.getD i 0) := by
  unfold quantBlock
  have hlen : i < (List.zipWith (fun c qc => quantOne qc add qbits c) coefs qcs).length := by
    rw [List.length_zipWith]; omega
  rw [List.getD_eq_getElem _ _ hlen, List.getElem_zipWith,
    List.getD_eq_getElem _ _ hi, List.getD_eq_getElem _ _ hi2]

/-- The scalar quantizer's output is sign-consistent with its input (real
quantization coefficients are positive and the rounding offsets, `171` or
`85` shifted by `qbits-9`, lie below `1 << qbits`). -/
lemma quantBlock_signOk (qcs : List Int) (add : Int) (qbits : Nat) (coefs : List Int)
    (hlen : qcs.length = coefs.length)
    (hq : ∀ qc ∈ qcs, 0 ≤ qc) (hadd : 0 ≤ add) (hadd2 : add < 2 ^ qbits) :
    signOk coefs (quantBlock qcs add qbits coefs) := by
  intro p
  by_cases hp : p < coefs.length
  · rw [quantBlock_getD qcs add qbits coefs p hp (by omega)]
    have hqc : 0 ≤ qcs.getD p 0 := by
      refine hq _ ?_
      rw [List.getD_eq_getElem _ _ (by omega)]
      exact List.getElem_mem _
    by_cases hz : quantOne (qcs.getD p 0) add qbits (coefs.getD p 0) = 0
    · rw [hz]
      exact ⟨fun h => absurd h (lt_irrefl 0), fun h => absurd h (lt_irrefl 0)⟩
    · have hsign := quantOne_sign (qcs.getD p 0) add qbits (coefs.getD p 0) hqc hadd hadd2 hz
      have hzc : coefs.getD p 0 = 0 →
          quantOne (qcs.getD p 0) add qbits (coefs.getD p 0) = 0 := by
        intro hh
        rw [hh]
        exact quantOne_zero (qcs.getD p 0) add qbits hadd hadd2
      constructor <;> intro h <;> omega
  · rw [List.getD_eq_default]
    · exact ⟨fun h => absurd h (lt_irrefl 0), fun h => absurd h (lt_irrefl 0)⟩
    · unfold quantBlock
      rw [List.length_zipWith]
      omega

lemma quantBlock_length (qcs : List Int) (add : Int) (qbits : Nat) (coefs : List Int)
    (hlen : qcs.length = coefs.length) :
    (quantBlock qcs add qbits coefs).length = coefs.length := by
  unfold quantBlock
  rw [List.length_zipWith]
  omega

/-!  ## RD sign-hiding cannot move the last significant position up -/

/-- A processed RD sign-hiding group only touches scan indices below any
bound `B` above which all levels are zero; so "all levels at positions `≥ B`
are zero" is preserved, and after a non-skipped group the remaining groups
lie entirely below `B`. -/
lemma rdsbhProcessCG_zero (resiDct deltaU rateIncUp rateIncDown sigRateDelta : List Int)
    (scan : List Nat) (rdFactor : Int) (numCoeff B : Nat)
    (hscan : scan.Perm (List.range numCoeff))
    (hRd : ∀ blk, blk < numCoeff →
      rdFactor * (-(deltaU.getD blk 0)) + rateIncUp.getD blk 0 < MAX_INT64)
    (subSet : Nat) (hcg : subSet * SCAN_SET_SIZE + SCAN_SET_SIZE ≤ numCoeff)
    (dstCoeff : List Int) (numSig : Nat) (lastCG : Bool)
    (hZ : ∀ pos, B ≤ pos → pos < numCoeff → dstCoeff.getD (scan.getD pos 0) 0 = 0)
    (hLC : lastCG = false → (subSet + 1) * SCAN_SET_SIZE ≤ B) :
    (∀ pos, B ≤ pos → pos < numCoeff →
      (rdsbhProcessCG resiDct deltaU rateIncUp rateIncDown sigRateDelta scan rdFactor subSet
        dstCoeff numSig lastCG).1.getD (scan.getD pos 0) 0 = 0) ∧
    ((rdsbhProcessCG resiDct deltaU rateIncUp rateIncDown sigRateDelta scan rdFactor subSet
        dstCoeff numSig lastCG).2.2 = false → subSet * SCAN_SET_SIZE ≤ B) := by
  unfold rdsbhProcessCG
  cases hfind : lastNZInCG dstCoeff scan (subSet * SCAN_SET_SIZE) with
  | none =>
    refine ⟨fun pos h1 h2 => hZ pos h1 h2, fun hf => ?_⟩
    exact le_trans (mul_le_mul_right' (show subSet ≤ subSet + 1 by omega) SCAN_SET_SIZE)
      (hLC hf)
  | some lastNZ =>
    obtain ⟨hlt16, hnz⟩ := lastNZInCG_spec dstCoeff scan _ lastNZ hfind
    have hidx : lastNZ + subSet * SCAN_SET_SIZE < B := by
      by_contra hge
      exact hnz (hZ (lastNZ + subSet * SCAN_SET_SIZE) (by omega)
        (by unfold SCAN_SET_SIZE at *; omega))
    have hsub : subSet * SCAN_SET_SIZE ≤ B := by omega
    dsimp only
    by_cases hthr : SBH_THRESHOLD ≤ (lastNZ : Int) -
        (firstNZInCG dstCoeff scan (subSet * SCAN_SET_SIZE) : Int)
    · rw [if_pos hthr]
      by_cases hpar : (if 0 < dstCoeff.getD (scan.getD (subSet * SCAN_SET_SIZE +
            firstNZInCG dstCoeff scan (subSet * SCAN_SET_SIZE)) 0) 0 then (0 : Int) else 1) ≠
          cgAbsSum dstCoeff scan (subSet * SCAN_SET_SIZE)
            (firstNZInCG dstCoeff scan (subSet * SCAN_SET_SIZE)) lastNZ % 2
      · rw [if_pos hpar]
        have hne : lastNZ ≠ firstNZInCG dstCoeff scan (subSet * SCAN_SET_SIZE) := by
          unfold SBH_THRESHOLD at hthr
          omega
        have hstart : lastNZ ≤ (if lastCG then lastNZ else SCAN_SET_SIZE - 1) := by
          unfold SCAN_SET_SIZE at *
          split_ifs <;> omega
        have hblk : scan.getD (lastNZ + subSet * SCAN_SET_SIZE) 0 < numCoeff := by
          refine scan_getD_lt scan numCoeff hscan _ ?_
          unfold SCAN_SET_SIZE at *; omega
        obtain ⟨n, hle, hpos, hfc, hz⟩ := rdsbh_candRun_good dstCoeff deltaU rateIncUp
          rateIncDown sigRateDelta resiDct scan rdFactor (subSet * SCAN_SET_SIZE)
          (firstNZInCG dstCoeff scan (subSet * SCAN_SET_SIZE)) lastNZ
          (if lastCG then lastNZ else SCAN_SET_SIZE - 1) lastCG
          (if 0 < dstCoeff.getD (scan.getD (subSet * SCAN_SET_SIZE +
            firstNZInCG dstCoeff scan (subSet * SCAN_SET_SIZE)) 0) 0 then (0 : Int) else 1)
          hstart hnz hne (hRd _ hblk)
        set st := candRun MAX_INT64 (fun n => scan.getD (n + subSet * SCAN_SET_SIZE) 0)
          (rdsbhEval dstCoeff deltaU rateIncUp rateIncDown sigRateDelta resiDct scan rdFactor
            (subSet * SCAN_SET_SIZE) (firstNZInCG dstCoeff scan (subSet * SCAN_SET_SIZE))
            lastNZ lastCG
            (if 0 < dstCoeff.getD (scan.getD (subSet * SCAN_SET_SIZE +
              firstNZInCG dstCoeff scan (subSet * SCAN_SET_SIZE)) 0) 0 then (0 : Int) else 1))
          (if lastCG then lastNZ else SCAN_SET_SIZE - 1) with hstdef
        have htn : st.minPos.toNat = scan.getD (n + subSet * SCAN_SET_SIZE) 0 := by
          rw [hpos]; exact Int.toNat_natCast _
        -- the modified scan index lies strictly below `B`
        have hnB : n + subSet * SCAN_SET_SIZE < B := by
          by_cases hl : lastCG
          · rw [if_pos hl] at hle
            omega
          · have h16 : (subSet + 1) * SCAN_SET_SIZE ≤ B :=
              hLC (Bool.not_eq_true lastCG ▸ (by simpa using hl))
            rw [if_neg hl] at hle
            unfold SCAN_SET_SIZE at *
            omega
        refine ⟨fun pos h1 h2 => ?_, fun _ => hsub⟩
        rw [withFalse_fst]
        have hnei : scan.getD pos 0 ≠ st.minPos.toNat := by
          rw [htn]
          intro he
          have := scan_getD_inj scan numCoeff hscan pos (n + subSet * SCAN_SET_SIZE) h2
            (by unfold SCAN_SET_SIZE at *; omega) he
          omega
        rw [sbhApply_other _ _ _ _ _ hnei]
        exact hZ pos h1 h2
      · rw [if_neg hpar]
        exact ⟨fun pos h1 h2 => hZ pos h1 h2, fun _ => hsub⟩
    · rw [if_neg hthr]
      exact ⟨fun pos h1 h2 => hZ pos h1 h2, fun _ => hsub⟩

lemma range_succ_reverse (k : Nat) :
    (List.range (k + 1)).reverse = k :: (List.range k).reverse := by
  rw [List.range_succ, List.reverse_append]
  rfl

set_option maxHeartbeats 1000000 in
/-- The whole RD sign-hiding pass preserves "all levels at reverse-scan
positions `≥ B` are zero". -/
lemma rdsbhFold_zero (resiDct deltaU rateIncUp rateIncDown sigRateDelta : List Int)
    (scan : List Nat) (rdFactor : Int) (numCoeff B : Nat)
    (hscan : scan.Perm (List.range numCoeff))
    (hRd : ∀ blk, blk < numCoeff →
      rdFactor * (-(deltaU.getD blk 0)) + rateIncUp.getD blk 0 < MAX_INT64)
    (k : Nat) (hk : (k + 1) * SCAN_SET_SIZE ≤ numCoeff) :
    ∀ (dstCoeff : List Int) (numSig : Nat) (lastCG : Bool),
      (∀ pos, B ≤ pos → pos < numCoeff → dstCoeff.getD (scan.getD pos 0) 0 = 0) →
      (lastCG = false → (k + 1) * SCAN_SET_SIZE ≤ B) →
      ∀ pos, B ≤ pos → pos < numCoeff →
        ((List.range (k + 1)).reverse.foldl
          (fun a s => rdsbhProcessCG resiDct deltaU rateIncUp rateIncDown sigRateDelta scan
            rdFactor s a.1 a.2.1 a.2.2) (dstCoeff, numSig, lastCG)).1.getD
          (scan.getD pos 0) 0 = 0 := by
  induction k with
  | zero =>
    intro dstCoeff numSig lastCG hZ hLC pos h1 h2
    have hmul : (0 : Nat) * SCAN_SET_SIZE + SCAN_SET_SIZE = (0 + 1) * SCAN_SET_SIZE := by
      ring
    have hcg' : 0 * SCAN_SET_SIZE + SCAN_SET_SIZE ≤ numCoeff := by omega
    have hstep := rdsbhProcessCG_zero resiDct deltaU rateIncUp rateIncDown sigRateDelta scan
      rdFactor numCoeff B hscan hRd 0 hcg' dstCoeff numSig lastCG hZ hLC
    have hrange : (List.range 1).reverse = [0] := rfl
    rw [hrange, List.foldl_cons, List.foldl_nil]
    exact hstep.1 pos h1 h2
  | succ k ih =>
    intro dstCoeff numSig lastCG hZ hLC pos h1 h2
    rw [range_succ_reverse, List.foldl_cons]
    have hmul : (k + 1) * SCAN_SET_SIZE + SCAN_SET_SIZE = (k + 1 + 1) * SCAN_SET_SIZE := by
      ring
    have hcg' : (k + 1) * SCAN_SET_SIZE + SCAN_SET_SIZE ≤ numCoeff := by omega
    have hstep := rdsbhProcessCG_zero resiDct deltaU rateIncUp rateIncDown sigRateDelta scan
      rdFactor numCoeff B hscan hRd (k + 1) hcg' dstCoeff numSig lastCG hZ hLC
    exact ih (le_trans (mul_le_mul_right' (show k + 1 ≤ k + 1 + 1 by omega) SCAN_SET_SIZE) hk)
      (rdsbhProcessCG resiDct deltaU rateIncUp rateIncDown sigRateDelta scan rdFactor (k + 1)
        dstCoeff numSig lastCG).1
      (rdsbhProcessCG resiDct deltaU rateIncUp rateIncDown sigRateDelta scan rdFactor (k + 1)
        dstCoeff numSig lastCG).2.1
      (rdsbhProcessCG resiDct deltaU rateIncUp rateIncDown sigRateDelta scan rdFactor (k + 1)
        dstCoeff numSig lastCG).2.2
      hstep.1 (fun hf => by have := hstep.2 hf; omega) pos h1 h2

/-!  ## Support lemmas for the bypass round trip, the DC fast path, and DC
intra prediction -/

lemma toInt16_of_range (x : Int) (h1 : -32768 ≤ x) (h2 : x ≤ 32767) : toInt16 x = x := by
  unfold toInt16
  omega

lemma grid_div_mod (k j trSize : Nat) (hj : j < trSize) :
    (k * trSize + j) / trSize = k ∧ (k * trSize + j) % trSize = j := by
  have h0 : 0 < trSize := by omega
  constructor
  · rw [Nat.add_comm, Nat.add_mul_div_right _ _ h0, Nat.div_eq_of_lt hj, Nat.zero_add]
  · rw [Nat.add_comm, Nat.add_mul_mod_self_right, Nat.mod_eq_of_lt hj]

/-- Unfolding of one inverse-transform pass at a sample position. -/
lemma idctPass_apply (M : Nat → Nat → Int) (n s : Nat) (src : Nat → Nat → Int) (j i : Nat) :
    idctPass M n s src j i =
      Clip3 (-32768) 32767
        (((Finset.range n).sum (fun k => M k i * src k j) + 2 ^ (s - 1)) / 2 ^ s) := rfl

/-- Clipping is inert inside the clamp interval. -/
lemma Clip3_of_range (lo hi x : Int) (h1 : lo ≤ x) (h2 : x ≤ hi) : Clip3 lo hi x = x := by
  unfold Clip3
  omega

/-- The first inverse-transform pass on a DC-only block: column 0 carries the
value `(64*c + 64) >> 7` in every row position, all other columns are zero. -/
lemma idctPass1_dc (M : Nat → Nat → Int) (n : Nat) (c : Int) (coef : Nat → Nat → Int)
    (hn : 0 < n)
    (hM : ∀ i, i < n → M 0 i = 64)
    (hc0 : coef 0 0 = c)
    (hcz : ∀ k j, k < n → j < n → ¬(k = 0 ∧ j = 0) → coef k j = 0)
    (hcr : -32768 ≤ c ∧ c ≤ 32767) :
    ∀ k j, k < n → j < n →
      idctPass M n 7 coef k j = if k = 0 then (64 * c + 64) / 128 else 0 := by
  intro k j hk hj
  rw [idctPass_apply]
  by_cases hk0 : k = 0
  · subst hk0
    rw [if_pos rfl]
    have hsum : (Finset.range n).sum (fun m => M m j * coef m 0) = 64 * c := by
      rw [Finset.sum_eq_single 0]
      · rw [hc0, hM j hj]
      · intro b hb hb0
        rw [hcz b 0 (Finset.mem_range.mp hb) hn (fun hcon => hb0 hcon.1), mul_zero]
      · intro hb
        exact absurd (Finset.mem_range.mpr hn) hb
    rw [hsum]
    have h128 : (2 : Int) ^ 7 = 128 := by norm_num
    have h64 : (2 : Int) ^ (7 - 1) = 64 := by norm_num
    rw [h128, h64]
    refine Clip3_of_range _ _ _ ?_ ?_ <;> omega
  · rw [if_neg hk0]
    have hsum : (Finset.range n).sum (fun m => M m j * coef m k) = 0 := by
      refine Finset.sum_eq_zero ?_
      intro m hm
      rw [hcz m k (Finset.mem_range.mp hm) hk (fun hcon => hk0 hcon.2), mul_zero]
    rw [hsum]
    have h128 : (2 : Int) ^ 7 = 128 := by norm_num
    have h64 : (2 : Int) ^ (7 - 1) = 64 := by norm_num
    rw [h128, h64]
    norm_num [Clip3]

/-- On a DC-only block the full two-pass inverse transform produces the DC
fast-path value `dcVal c` in every sample. -/
lemma idct2d_dc (M : Nat → Nat → Int) (n : Nat) (c : Int) (coef : Nat → Nat → Int)
    (hn : 0 < n)
    (hM : ∀ i, i < n → M 0 i = 64)
    (hc0 : coef 0 0 = c)
    (hcz : ∀ k j, k < n → j < n → ¬(k = 0 ∧ j = 0) → coef k j = 0)
    (hcr : -32768 ≤ c ∧ c ≤ 32767) :
    ∀ j i, j < n → i < n → idct2d M n coef j i = dcVal c := by
  intro j i hj hi
  unfold idct2d
  have hpass1 := idctPass1_dc M n c coef hn hM hc0 hcz hcr
  rw [idctPass_apply]
  have hsum : (Finset.range n).sum (fun k => M k i * idctPass M n 7 coef k j) =
      64 * ((64 * c + 64) / 128) := by
    rw [Finset.sum_eq_single 0]
    · rw [hpass1 0 j hn hj, if_pos rfl, hM i hi]
    · intro b hb hb0
      rw [hpass1 b j (Finset.mem_range.mp hb) hj, if_neg hb0, mul_zero]
    · intro hb
      exact absurd (Finset.mem_range.mpr hn) hb
  rw [hsum]
  have hs1 : (2 : Int) ^ (12 - (X265_DEPTH - 8) - 1) = 2048 := by norm_num [X265_DEPTH]
  have hs2 : (2 : Int) ^ (12 - (X265_DEPTH - 8)) = 4096 := by norm_num [X265_DEPTH]
  rw [hs1, hs2]
  unfold dcVal
  have he : c * 64 + 64 = 64 * c + 64 := by ring
  rw [he]
  have hcomm : (64 * c + 64) / 128 * 64 = 64 * ((64 * c + 64) / 128) := by ring
  rw [hcomm]
  refine Clip3_of_range _ _ _ ?_ ?_ <;> omega

/-- The DC accumulation loop equals `width` plus the sums of the first
`width` top and left reference samples. -/
lemma foldl_add_pair (m a : Nat) (f g : Nat → Nat) :
    (List.range m).foldl (fun acc i => acc + f i + g i) a =
      a + (Finset.range m).sum f + (Finset.range m).sum g := by
  induction m with
  | zero => simp
  | succ m ih =>
    rw [List.range_succ, List.foldl_append, ih, Finset.sum_range_succ, Finset.sum_range_succ]
    simp only [List.foldl_cons, List.foldl_nil]
    ring

lemma intra_dc_val_eq (width : Nat) (srcPix : List Nat) :
    intra_dc_val width srcPix =
      (width + (Finset.range width).sum (fun i => srcPix.getD (1 + i) 0) +
        (Finset.range width).sum (fun i => srcPix.getD (2 * width + 1 + i) 0)) /
        (width + width) := by
  unfold intra_dc_val
  rw [foldl_add_pair]

/-!  ## Full-pass wrappers -/

/-- Sign consistency holds as soon as it holds below the buffer length
(out-of-range reads give 0). -/
lemma signOk_of_bounded (resiDct coeff : List Int)
    (h : ∀ p, p < coeff.length →
      (0 < coeff.getD p 0 → 0 ≤ resiDct.getD p 0) ∧
      (coeff.getD p 0 < 0 → resiDct.getD p 0 < 0)) :
    signOk resiDct coeff := by
  intro p
  by_cases hp : p < coeff.length
  · exact h p hp
  · rw [List.getD_eq_default _ _ (by omega)]
    exact ⟨fun hc => absurd hc (lt_irrefl 0), fun hc => absurd hc (lt_irrefl 0)⟩

/-- Two sign-consistent buffers never disagree on the side of zero: a level
can drop to zero but cannot cross it. -/
lemma signOk_no_cross (resiDct a b : List Int) (ha : signOk resiDct a) (hb : signOk resiDct b)
    (p : Nat) (hne : a.getD p 0 ≠ 0) :
    b.getD p 0 = 0 ∨ (0 < b.getD p 0 ↔ 0 < a.getD p 0) := by
  obtain ⟨h1, h2⟩ := ha p
  obtain ⟨h3, h4⟩ := hb p
  by_cases hb0 : b.getD p 0 = 0
  · exact Or.inl hb0
  · right
    constructor <;> intro h <;> omega

/-- `Quant::signBitHidingHDQ` keeps `numSig` equal to the number of non-zero
levels and keeps the levels sign-consistent with the DCT coefficients. -/
lemma signBitHidingHDQ_inv (resiDct deltaU : List Int) (scan : List Nat) (numCG : Nat)
    (coeff : List Int) (numSig : Nat)
    (hscan : scan.Perm (List.range (numCG * SCAN_SET_SIZE)))
    (hlen : coeff.length = numCG * SCAN_SET_SIZE)
    (hs : signOk resiDct coeff) (hn : numSig = countNZ coeff) :
    (signBitHidingHDQ resiDct deltaU scan numCG coeff numSig).2 =
      countNZ (signBitHidingHDQ resiDct deltaU scan numCG coeff numSig).1 ∧
    signOk resiDct (signBitHidingHDQ resiDct deltaU scan numCG coeff numSig).1 := by
  have hcgs : ∀ cg ∈ (List.range numCG).reverse,
      cg * SCAN_SET_SIZE + SCAN_SET_SIZE ≤ numCG * SCAN_SET_SIZE := by
    intro cg hcg
    have hlt : cg < numCG := List.mem_range.mp (List.mem_reverse.mp hcg)
    have hm : (cg + 1) * SCAN_SET_SIZE ≤ numCG * SCAN_SET_SIZE :=
      mul_le_mul_right' (by omega) SCAN_SET_SIZE
    have he : cg * SCAN_SET_SIZE + SCAN_SET_SIZE = (cg + 1) * SCAN_SET_SIZE := by ring
    omega
  have hstep := sbhFold_inv resiDct deltaU scan (numCG * SCAN_SET_SIZE) hscan
    ((List.range numCG).reverse) hcgs (coeff, numSig, true) hlen hs hn
  exact ⟨hstep.1, hstep.2.1⟩

/-- The RD sign-hiding pass keeps `numSig` equal to the number of non-zero
levels and keeps the levels sign-consistent with the DCT coefficients. -/
lemma rdSignHide_inv (resiDct deltaU rateIncUp rateIncDown sigRateDelta : List Int)
    (scan : List Nat) (rdFactor : Int) (cgLastScanPos : Nat)
    (dstCoeff : List Int) (numSig : Nat) (numCoeff : Nat)
    (hscan : scan.Perm (List.range numCoeff))
    (hRd : ∀ blk, blk < numCoeff →
      rdFactor * (-(deltaU.getD blk 0)) + rateIncUp.getD blk 0 < MAX_INT64)
    (hcgL : (cgLastScanPos + 1) * SCAN_SET_SIZE ≤ numCoeff)
    (hlen : dstCoeff.length = numCoeff)
    (hs : signOk resiDct dstCoeff) (hn : numSig = countNZ dstCoeff) :
    (rdSignHide resiDct deltaU rateIncUp rateIncDown sigRateDelta scan rdFactor cgLastScanPos
      dstCoeff numSig).2 =
      countNZ (rdSignHide resiDct deltaU rateIncUp rateIncDown sigRateDelta scan rdFactor
        cgLastScanPos dstCoeff numSig).1 ∧
    signOk resiDct (rdSignHide resiDct deltaU rateIncUp rateIncDown sigRateDelta scan rdFactor
      cgLastScanPos dstCoeff numSig).1 := by
  have hcgs : ∀ cg ∈ (List.range (cgLastScanPos + 1)).reverse,
      cg * SCAN_SET_SIZE + SCAN_SET_SIZE ≤ numCoeff := by
    intro cg hcg
    have hlt : cg < cgLastScanPos + 1 := List.mem_range.mp (List.mem_reverse.mp hcg)
    have hm : (cg + 1) * SCAN_SET_SIZE ≤ (cgLastScanPos + 1) * SCAN_SET_SIZE :=
      mul_le_mul_right' (by omega) SCAN_SET_SIZE
    have he : cg * SCAN_SET_SIZE + SCAN_SET_SIZE = (cg + 1) * SCAN_SET_SIZE := by ring
    omega
  have hstep := rdsbhFold_inv resiDct deltaU rateIncUp rateIncDown sigRateDelta scan rdFactor
    numCoeff hscan hRd ((List.range (cgLastScanPos + 1)).reverse) hcgs
    (dstCoeff, numSig, true) hlen hs hn
  exact ⟨hstep.1, hstep.2.1⟩

/-!  ## The claims -/

/-- C1: for every call to `transformNxN`, the returned `numSig` equals the
number of non-zero entries in the output level array — on the scalar
quantization path (first conjunct, including the sign-data-hiding pass it may
run), and on the RDOQ path including the RD sign-hiding pass (second
conjunct).  The statement is universal over the quantization coefficients,
rounding offset, `qbits`, scan order and block geometry, which is how
`log2TrSize`, the texture type and the QP enter (`qbits = QUANT_SHIFT + per +
transformShift`, `qcs` the scaling-list row for the list type); the stated
bounds hold for every value in the enumerated domain. -/
theorem C1_numSig_eq_count :
    (∀ (qcs resiDct : List Int) (add : Int) (qbits : Nat) (bSH : Bool) (scan : List Nat)
      (numCG : Nat),
      scan.Perm (List.range (numCG * SCAN_SET_SIZE)) →
      qcs.length = numCG * SCAN_SET_SIZE →
      resiDct.length = numCG * SCAN_SET_SIZE →
      (∀ qc ∈ qcs, 0 ≤ qc) → 0 ≤ add → add < 2 ^ qbits →
      (transformNxN_scalarPath qcs add qbits bSH scan numCG resiDct).2 =
        countNZ (transformNxN_scalarPath qcs add qbits bSH scan numCG resiDct).1) ∧
    (∀ (resiDct deltaU rateIncUp rateIncDown sigRateDelta dstCoeff : List Int)
      (scan : List Nat) (rdFactor : Int) (bSH : Bool) (cgLast B L numCoeff : Nat),
      scan.Perm (List.range numCoeff) →
      B ≤ L + 1 → L < numCoeff → dstCoeff.length = numCoeff →
      (∀ pos, pos < numCoeff → L < pos → dstCoeff.getD (scan.getD pos 0) 0 = 0) →
      (∀ p, p < numCoeff → 0 ≤ dstCoeff.getD p 0) →
      (∀ p, p < numCoeff → resiDct.getD p 0 = 0 → dstCoeff.getD p 0 = 0) →
      (∀ blk, blk < numCoeff →
        rdFactor * (-(deltaU.getD blk 0)) + rateIncUp.getD blk 0 < MAX_INT64) →
      (cgLast + 1) * SCAN_SET_SIZE ≤ numCoeff →
      (rdoQuantTail resiDct deltaU rateIncUp rateIncDown sigRateDelta scan rdFactor bSH
        cgLast dstCoeff B L).2 =
        countNZ (rdoQuantTail resiDct deltaU rateIncUp rateIncDown sigRateDelta scan rdFactor
          bSH cgLast dstCoeff B L).1) := by
  constructor
  · intro qcs resiDct add qbits bSH scan numCG hscan hql hrl hq hadd hadd2
    unfold transformNxN_scalarPath
    dsimp only
    by_cases hcond : 2 ≤ quantNumSig qcs add qbits resiDct ∧ bSH = true
    · rw [if_pos hcond]
      exact (signBitHidingHDQ_inv resiDct (quantDeltaUs qcs add qbits resiDct) scan numCG
        (quantBlock qcs add qbits resiDct) (quantNumSig qcs add qbits resiDct) hscan
        (by rw [quantBlock_length qcs add qbits resiDct (by omega)]; exact hrl)
        (quantBlock_signOk qcs add qbits resiDct (by omega) hq hadd hadd2)
        (quantNumSig_eq_countNZ qcs add qbits resiDct)).1
    · rw [if_neg hcond]
      exact quantNumSig_eq_countNZ qcs add qbits resiDct
  · intro resiDct deltaU rateIncUp rateIncDown sigRateDelta dstCoeff scan rdFactor bSH
      cgLast B L numCoeff hscan hB hL hlen hzero0 hpos hdz hRd hcgL
    have hzero : ∀ pos, L < pos → pos < numCoeff → dstCoeff.getD (scan.getD pos 0) 0 = 0 :=
      fun pos h1 h2 => hzero0 pos h2 h1
    have hpos' : ∀ p, 0 ≤ dstCoeff.getD p 0 := by
      intro p
      by_cases hp : p < numCoeff
      · exact hpos p hp
      · rw [List.getD_eq_default _ _ (by omega)]
    have hdz' : ∀ p, resiDct.getD p 0 = 0 → dstCoeff.getD p 0 = 0 := by
      intro p hz
      by_cases hp : p < numCoeff
      · exact hdz p hp hz
      · rw [List.getD_eq_default _ _ (by omega)]
    have hfin := rdoFinalize_numSig resiDct scan dstCoeff B L numCoeff hscan hB hL hlen hzero
    have hsOk := rdoFinalize_signOk resiDct scan dstCoeff B L numCoeff hscan hB hL hlen hzero
      hpos' hdz'
    have hflen := (rdoFinalize_spec resiDct scan dstCoeff B L numCoeff hscan hB hL hlen).2.2
    unfold rdoQuantTail
    dsimp only
    by_cases hcond : bSH = true ∧ 2 ≤ (rdoFinalize resiDct scan dstCoeff B L).2
    · rw [if_pos hcond]
      exact (rdSignHide_inv resiDct deltaU rateIncUp rateIncDown sigRateDelta scan rdFactor
        cgLast (rdoFinalize resiDct scan dstCoeff B L).1
        (rdoFinalize resiDct scan dstCoeff B L).2 numCoeff hscan hRd hcgL hflen hsOk hfin).1
    · rw [if_neg hcond]
      exact hfin

theorem C1_numSig_eq_count_witness :
    (transformNxN_scalarPath (List.replicate 16 16384) 21888 16 true scan4x4diag 1 exResi1).2 =
      countNZ (transformNxN_scalarPath (List.replicate 16 16384) 21888 16 true scan4x4diag 1
        exResi1).1 ∧
    (rdoQuantTail exResi2 (List.replicate 16 2) (List.replicate 16 0) (List.replicate 16 0)
      (List.replicate 16 0) scan4x4diag 3 true 0 exDst2 2 2).2 =
      countNZ (rdoQuantTail exResi2 (List.replicate 16 2) (List.replicate 16 0)
        (List.replicate 16 0) (List.replicate 16 0) scan4x4diag 3 true 0 exDst2 2 2).1 :=
  ⟨C1_numSig_eq_count.1 (List.replicate 16 16384) exResi1 21888 16 true scan4x4diag 1
      (by decide) (by decide) (by decide) (by decide) (by decide) (by decide),
   C1_numSig_eq_count.2 exResi2 (List.replicate 16 2) (List.replicate 16 0)
      (List.replicate 16 0) (List.replicate 16 0) exDst2 scan4x4diag 3 true 0 2 2 16
      (by decide) (by decide) (by decide) (by decide) (by decide) (by decide) (by decide)
      (by decide) (by decide)⟩

/-- C10: sign-hiding never flips the sign of a level.  In both
`signBitHidingHDQ` (first conjunct) and the RD sign-hiding pass of `rdoQuant`
(second conjunct), the chosen `±1` change is added when the pre-quantization
DCT coefficient is non-negative and subtracted when it is negative, so after
the pass every non-zero level still lies on the side of zero given by its DCT
coefficient (`signOk`), and a level that was non-zero either keeps its sign
or drops to zero — it never crosses zero. -/
theorem C10_sign_hiding_no_flip :
    (∀ (resiDct deltaU coeff : List Int) (scan : List Nat) (numCG numSig : Nat),
      scan.Perm (List.range (numCG * SCAN_SET_SIZE)) →
      coeff.length = numCG * SCAN_SET_SIZE →
      signOk resiDct coeff → numSig = countNZ coeff →
      signOk resiDct (signBitHidingHDQ resiDct deltaU scan numCG coeff numSig).1 ∧
      (∀ p, coeff.getD p 0 ≠ 0 →
        (signBitHidingHDQ resiDct deltaU scan numCG coeff numSig).1.getD p 0 = 0 ∨
        (0 < (signBitHidingHDQ resiDct deltaU scan numCG coeff numSig).1.getD p 0 ↔
          0 < coeff.getD p 0))) ∧
    (∀ (resiDct deltaU rateIncUp rateIncDown sigRateDelta dstCoeff : List Int)
      (scan : List Nat) (rdFactor : Int) (cgLast numSig numCoeff : Nat),
      scan.Perm (List.range numCoeff) →
      (cgLast + 1) * SCAN_SET_SIZE ≤ numCoeff →
      dstCoeff.length = numCoeff →
      (∀ blk, blk < numCoeff →
        rdFactor * (-(deltaU.getD blk 0)) + rateIncUp.getD blk 0 < MAX_INT64) →
      signOk resiDct dstCoeff → numSig = countNZ dstCoeff →
      signOk resiDct (rdSignHide resiDct deltaU rateIncUp rateIncDown sigRateDelta scan
        rdFactor cgLast dstCoeff numSig).1 ∧
      (∀ p, dstCoeff.getD p 0 ≠ 0 →
        (rdSignHide resiDct deltaU rateIncUp rateIncDown sigRateDelta scan rdFactor cgLast
          dstCoeff numSig).1.getD p 0 = 0 ∨
        (0 < (rdSignHide resiDct deltaU rateIncUp rateIncDown sigRateDelta scan rdFactor
          cgLast dstCoeff numSig).1.getD p 0 ↔ 0 < dstCoeff.getD p 0))) := by
  constructor
  · intro resiDct deltaU coeff scan numCG numSig hscan hlen hs hn
    have h := signBitHidingHDQ_inv resiDct deltaU scan numCG coeff numSig hscan hlen hs hn
    exact ⟨h.2, fun p hp => signOk_no_cross resiDct coeff _ hs h.2 p hp⟩
  · intro resiDct deltaU rateIncUp rateIncDown sigRateDelta dstCoeff scan rdFactor cgLast
      numSig numCoeff hscan hcgL hlen hRd hs hn
    have h := rdSignHide_inv resiDct deltaU rateIncUp rateIncDown sigRateDelta scan rdFactor
      cgLast dstCoeff numSig numCoeff hscan hRd hcgL hlen hs hn
    exact ⟨h.2, fun p hp => signOk_no_cross resiDct dstCoeff _ hs h.2 p hp⟩

theorem C10_sign_hiding_no_flip_witness :
    signOk exResi1 (signBitHidingHDQ exResi1 (List.replicate 16 2) scan4x4diag 1
      [25, -13, 8, 0, 0, 0, 0, 0, 2, 0, 0, 0, 0, 0, 0, 0] 4).1 ∧
    signOk exResi2 (rdSignHide exResi2 (List.replicate 16 2) (List.replicate 16 0)
      (List.replicate 16 0) (List.replicate 16 0) scan4x4diag 3 0 [2, -1, 0, 0, -1, 0, 0, 0,
        0, 0, 0, 0, 0, 0, 0, 0] 3).1 :=
  ⟨(C10_sign_hiding_no_flip.1 exResi1 (List.replicate 16 2)
      [25, -13, 8, 0, 0, 0, 0, 0, 2, 0, 0, 0, 0, 0, 0, 0] scan4x4diag 1 4
      (by decide) (by decide) (signOk_of_bounded _ _ (by decide)) (by decide)).1,
   (C10_sign_hiding_no_flip.2 exResi2 (List.replicate 16 2) (List.replicate 16 0)
      (List.replicate 16 0) (List.replicate 16 0)
      [2, -1, 0, 0, -1, 0, 0, 0, 0, 0, 0, 0, 0, 0, 0, 0] scan4x4diag 3 0 3 16
      (by decide) (by decide) (by decide) (by decide)
      (signOk_of_bounded _ _ (by decide)) (by decide)).1⟩

/-- C9: `signBitHidingHDQ` modifies a coding group only when the distance
between its first and last non-zero scan positions reaches `SBH_THRESHOLD`
(= 4) and the sign bit of the first non-zero level mismatches the parity of
the level sum of the group (first two conjuncts: an empty group and a group
failing either condition are returned unchanged); when both conditions hold
it changes exactly one coefficient of the group by one in absolute value and
leaves every other coefficient of the block unchanged (third conjunct). -/
theorem C9_sbh_group_change (resiDct deltaU coeff : List Int) (scan : List Nat)
    (numCG cg numSig : Nat) (lastCG : Bool)
    (hscan : scan.Perm (List.range (numCG * SCAN_SET_SIZE)))
    (hcg : cg < numCG)
    (hlen : coeff.length = numCG * SCAN_SET_SIZE)
    (hs : signOk resiDct coeff) :
    (lastNZInCG coeff scan (cg * SCAN_SET_SIZE) = none →
      sbhProcessCG resiDct deltaU scan cg coeff numSig lastCG = (coeff, numSig, lastCG)) ∧
    (∀ lastNZ, lastNZInCG coeff scan (cg * SCAN_SET_SIZE) = some lastNZ →
      (¬(SBH_THRESHOLD ≤ (lastNZ : Int) -
          (firstNZInCG coeff scan (cg * SCAN_SET_SIZE) : Int)) ∨
        (if 0 < coeff.getD (scan.getD (cg * SCAN_SET_SIZE +
            firstNZInCG coeff scan (cg * SCAN_SET_SIZE)) 0) 0 then (0 : Int) else 1) =
          cgAbsSum coeff scan (cg * SCAN_SET_SIZE)
            (firstNZInCG coeff scan (cg * SCAN_SET_SIZE)) lastNZ % 2) →
      (sbhProcessCG resiDct deltaU scan cg coeff numSig lastCG).1 = coeff ∧
      (sbhProcessCG resiDct deltaU scan cg coeff numSig lastCG).2.1 = numSig) ∧
    (∀ lastNZ, lastNZInCG coeff scan (cg * SCAN_SET_SIZE) = some lastNZ →
      SBH_THRESHOLD ≤ (lastNZ : Int) - (firstNZInCG coeff scan (cg * SCAN_SET_SIZE) : Int) →
      (if 0 < coeff.getD (scan.getD (cg * SCAN_SET_SIZE +
          firstNZInCG coeff scan (cg * SCAN_SET_SIZE)) 0) 0 then (0 : Int) else 1) ≠
        cgAbsSum coeff scan (cg * SCAN_SET_SIZE)
          (firstNZInCG coeff scan (cg * SCAN_SET_SIZE)) lastNZ % 2 →
      ∃ n, n < SCAN_SET_SIZE ∧
        (((sbhProcessCG resiDct deltaU scan cg coeff numSig lastCG).1.getD
            (scan.getD (n + cg * SCAN_SET_SIZE) 0) 0).natAbs =
            (coeff.getD (scan.getD (n + cg * SCAN_SET_SIZE) 0) 0).natAbs + 1 ∨
          (coeff.getD (scan.getD (n + cg * SCAN_SET_SIZE) 0) 0).natAbs =
            ((sbhProcessCG resiDct deltaU scan cg coeff numSig lastCG).1.getD
              (scan.getD (n + cg * SCAN_SET_SIZE) 0) 0).natAbs + 1) ∧
        (∀ r, r ≠ scan.getD (n + cg * SCAN_SET_SIZE) 0 →
          (sbhProcessCG resiDct deltaU scan cg coeff numSig lastCG).1.getD r 0 =
            coeff.getD r 0)) := by
  refine ⟨?_, ?_, ?_⟩
  · intro hfind
    unfold sbhProcessCG
    rw [hfind]
  · intro lastNZ hfind hcond
    unfold sbhProcessCG
    rw [hfind]
    dsimp only
    rcases hcond with hthr | hpar
    · rw [if_neg hthr]
      exact ⟨rfl, rfl⟩
    · by_cases hthr : SBH_THRESHOLD ≤ (lastNZ : Int) -
          (firstNZInCG coeff scan (cg * SCAN_SET_SIZE) : Int)
      · rw [if_pos hthr, if_neg (not_not_intro hpar)]
        exact ⟨rfl, rfl⟩
      · rw [if_neg hthr]
        exact ⟨rfl, rfl⟩
  · intro lastNZ hfind hthr hpar
    obtain ⟨hlt16, hnz⟩ := lastNZInCG_spec coeff scan _ lastNZ hfind
    have hne : lastNZ ≠ firstNZInCG coeff scan (cg * SCAN_SET_SIZE) := by
      unfold SBH_THRESHOLD at hthr
      omega
    have hstart : lastNZ ≤ (if lastCG then lastNZ else SCAN_SET_SIZE - 1) := by
      unfold SCAN_SET_SIZE at *
      split_ifs <;> omega
    obtain ⟨n, hle, hpos, hfc, hz⟩ := hdq_candRun_good coeff deltaU resiDct scan
      (cg * SCAN_SET_SIZE) (firstNZInCG coeff scan (cg * SCAN_SET_SIZE)) lastNZ
      (if lastCG then lastNZ else SCAN_SET_SIZE - 1)
      (if 0 < coeff.getD (scan.getD (cg * SCAN_SET_SIZE +
        firstNZInCG coeff scan (cg * SCAN_SET_SIZE)) 0) 0 then (0 : Int) else 1)
      hstart hnz hne
    set st := candRun MAX_INT (fun n => scan.getD (n + cg * SCAN_SET_SIZE) 0)
      (hdqEval coeff deltaU resiDct scan (cg * SCAN_SET_SIZE)
        (firstNZInCG coeff scan (cg * SCAN_SET_SIZE))
        (if 0 < coeff.getD (scan.getD (cg * SCAN_SET_SIZE +
          firstNZInCG coeff scan (cg * SCAN_SET_SIZE)) 0) 0 then (0 : Int) else 1))
      (if lastCG then lastNZ else SCAN_SET_SIZE - 1) with hstdef
    have hn16 : n < SCAN_SET_SIZE := by
      split_ifs at hle with hl
      · unfold SCAN_SET_SIZE at *; omega
      · unfold SCAN_SET_SIZE at *; omega
    have htn : st.minPos.toNat = scan.getD (n + cg * SCAN_SET_SIZE) 0 := by
      rw [hpos]; exact Int.toNat_natCast _
    have hq : scan.getD (n + cg * SCAN_SET_SIZE) 0 < numCG * SCAN_SET_SIZE := by
      refine scan_getD_lt scan _ hscan _ ?_
      unfold SCAN_SET_SIZE at *; omega
    have hp : st.minPos.toNat < coeff.length := by rw [htn, hlen]; exact hq
    refine ⟨n, hn16, ?_, ?_⟩
    · unfold sbhProcessCG
      rw [hfind]
      dsimp only
      rw [if_pos hthr, if_pos hpar, withFalse_fst, ← htn]
      exact sbhApply_shape resiDct coeff numSig st hp hfc (by rw [htn]; exact hz) hs
    · intro r hr
      unfold sbhProcessCG
      rw [hfind]
      dsimp only
      rw [if_pos hthr, if_pos hpar, withFalse_fst]
      exact sbhApply_other resiDct coeff numSig st r (by rw [htn]; exact hr)

theorem C9_sbh_group_change_witness :
    ∃ n, n < SCAN_SET_SIZE ∧
      (((sbhProcessCG [300, 0, 0, 0, 0, 150, 0, 0, 0, 0, 0, 0, 0, 0, 0, 0]
          (List.replicate 16 0) scan4x4diag 0
          [3, 0, 0, 0, 0, 2, 0, 0, 0, 0, 0, 0, 0, 0, 0, 0] 2 true).1.getD
          (scan4x4diag.getD (n + 0 * SCAN_SET_SIZE) 0) 0).natAbs =
          (([3, 0, 0, 0, 0, 2, 0, 0, 0, 0, 0, 0, 0, 0, 0, 0] : List Int).getD
            (scan4x4diag.getD (n + 0 * SCAN_SET_SIZE) 0) 0).natAbs + 1 ∨
        (([3, 0, 0, 0, 0, 2, 0, 0, 0, 0, 0, 0, 0, 0, 0, 0] : List Int).getD
            (scan4x4diag.getD (n + 0 * SCAN_SET_SIZE) 0) 0).natAbs =
          ((sbhProcessCG [300, 0, 0, 0, 0, 150, 0, 0, 0, 0, 0, 0, 0, 0, 0, 0]
            (List.replicate 16 0) scan4x4diag 0
            [3, 0, 0, 0, 0, 2, 0, 0, 0, 0, 0, 0, 0, 0, 0, 0] 2 true).1.getD
            (scan4x4diag.getD (n + 0 * SCAN_SET_SIZE) 0) 0).natAbs + 1) ∧
      (∀ r, r ≠ scan4x4diag.getD (n + 0 * SCAN_SET_SIZE) 0 →
        (sbhProcessCG [300, 0, 0, 0, 0, 150, 0, 0, 0, 0, 0, 0, 0, 0, 0, 0]
          (List.replicate 16 0) scan4x4diag 0
          [3, 0, 0, 0, 0, 2, 0, 0, 0, 0, 0, 0, 0, 0, 0, 0] 2 true).1.getD r 0 =
          ([3, 0, 0, 0, 0, 2, 0, 0, 0, 0, 0, 0, 0, 0, 0, 0] : List Int).getD r 0) :=
  (C9_sbh_group_change [300, 0, 0, 0, 0, 150, 0, 0, 0, 0, 0, 0, 0, 0, 0, 0]
    (List.replicate 16 0) [3, 0, 0, 0, 0, 2, 0, 0, 0, 0, 0, 0, 0, 0, 0, 0] scan4x4diag
    1 0 2 true (by decide) (by decide) (by decide)
    (signOk_of_bounded _ _ (by decide))).2.2 4 (by decide) (by decide) (by decide)

/-- C3 counterexample: the claim asserts that after `rdoQuant` returns a
non-zero count, the level at reverse-scan position `bestLastIdx` is non-zero
(unless the block is all-zero).  On a DC-only block the search sets
`bestLastIdx = lastScanPos + 1 = 1` (it is one *past* the last significant
position, line 858: `bestLastIdx = scanPos + 1`), the returned count is 1 —
the block is not all-zero — yet the level at reverse-scan position
`bestLastIdx = 1` is zero; the last non-zero level sits at `bestLastIdx - 1`. -/
theorem C3_counterexample :
    (rdoQuantTail [100, 0, 0, 0, 0, 0, 0, 0, 0, 0, 0, 0, 0, 0, 0, 0] (List.replicate 16 0)
        (List.replicate 16 0) (List.replicate 16 0) (List.replicate 16 0) scan4x4diag 1 true 0
        [1, 0, 0, 0, 0, 0, 0, 0, 0, 0, 0, 0, 0, 0, 0, 0] 1 0).1.getD
      (scan4x4diag.getD 1 0) 0 = 0 ∧
    (rdoQuantTail [100, 0, 0, 0, 0, 0, 0, 0, 0, 0, 0, 0, 0, 0, 0, 0] (List.replicate 16 0)
        (List.replicate 16 0) (List.replicate 16 0) (List.replicate 16 0) scan4x4diag 1 true 0
        [1, 0, 0, 0, 0, 0, 0, 0, 0, 0, 0, 0, 0, 0, 0, 0] 1 0).2 = 1 ∧
    (rdoQuantTail [100, 0, 0, 0, 0, 0, 0, 0, 0, 0, 0, 0, 0, 0, 0, 0] (List.replicate 16 0)
        (List.replicate 16 0) (List.replicate 16 0) (List.replicate 16 0) scan4x4diag 1 true 0
        [1, 0, 0, 0, 0, 0, 0, 0, 0, 0, 0, 0, 0, 0, 0, 0] 1 0).1.getD
      (scan4x4diag.getD 0 0) 0 = 1 := by
  refine ⟨?_, ?_, ?_⟩ <;> decide

/-- C3 (amended): after `rdoQuant`, every output level at reverse-scan
positions greater than or equal to `bestLastIdx` is zero — this remains true
through the RD sign-hiding pass (first conjunct); immediately after the
recount/cleanup, i.e. before RD sign-hiding, the level at reverse-scan
position `bestLastIdx - 1` is non-zero whenever `bestLastIdx > 0` (the
last-position search only selects positions holding a non-zero level, taken
here as the hypothesis that the input level at `bestLastIdx - 1` is non-zero);
and when `bestLastIdx = 0` the block is all-zero: the returned count is 0
(third conjunct). -/
theorem C3_best_last_idx (resiDct deltaU rateIncUp rateIncDown sigRateDelta dstCoeff :
      List Int) (scan : List Nat) (rdFactor : Int) (bSH : Bool) (cgLast B L numCoeff : Nat)
    (hscan : scan.Perm (List.range numCoeff))
    (hB : B ≤ L + 1) (hL : L < numCoeff) (hlen : dstCoeff.length = numCoeff)
    (hzero : ∀ pos, pos < numCoeff → L < pos → dstCoeff.getD (scan.getD pos 0) 0 = 0)
    (hRd : ∀ blk, blk < numCoeff →
      rdFactor * (-(deltaU.getD blk 0)) + rateIncUp.getD blk 0 < MAX_INT64)
    (hcgL : (cgLast + 1) * SCAN_SET_SIZE ≤ numCoeff) :
    (∀ pos, B ≤ pos → pos < numCoeff →
      (rdoQuantTail resiDct deltaU rateIncUp rateIncDown sigRateDelta scan rdFactor bSH
        cgLast dstCoeff B L).1.getD (scan.getD pos 0) 0 = 0) ∧
    (0 < B → dstCoeff.getD (scan.getD (B - 1) 0) 0 ≠ 0 →
      (rdoFinalize resiDct scan dstCoeff B L).1.getD (scan.getD (B - 1) 0) 0 ≠ 0) ∧
    (B = 0 →
      (rdoQuantTail resiDct deltaU rateIncUp rateIncDown sigRateDelta scan rdFactor bSH
        cgLast dstCoeff B L).2 = 0) := by
  have hzero' : ∀ pos, L < pos → pos < numCoeff → dstCoeff.getD (scan.getD pos 0) 0 = 0 :=
    fun pos h1 h2 => hzero pos h2 h1
  have htail := rdoFinalize_tail_zero resiDct scan dstCoeff B L numCoeff hscan hB hL hlen
    hzero'
  refine ⟨?_, ?_, ?_⟩
  · intro pos hge hlt
    unfold rdoQuantTail
    dsimp only
    by_cases hcond : bSH = true ∧ 2 ≤ (rdoFinalize resiDct scan dstCoeff B L).2
    · rw [if_pos hcond]
      unfold rdSignHide
      dsimp only
      exact rdsbhFold_zero resiDct deltaU rateIncUp rateIncDown sigRateDelta scan rdFactor
        numCoeff B hscan hRd cgLast hcgL (rdoFinalize resiDct scan dstCoeff B L).1
        (rdoFinalize resiDct scan dstCoeff B L).2 true htail (fun hf => absurd hf (by simp))
        pos hge hlt
    · rw [if_neg hcond]
      exact htail pos hge hlt
  · intro hB0 hnzB
    exact rdoFinalize_last_nonzero resiDct scan dstCoeff B L numCoeff hscan hB hL hlen hB0
      hnzB
  · intro hB0
    subst hB0
    have hcnt := (rdoFinalize_spec resiDct scan dstCoeff 0 L numCoeff hscan (by omega) hL
      hlen).2.1
    unfold rdoQuantTail
    dsimp only
    rw [if_neg (by rw [hcnt]; simp)]
    rw [hcnt]
    rfl

theorem C3_best_last_idx_witness :
    (rdoQuantTail exResi2 (List.replicate 16 2) (List.replicate 16 0) (List.replicate 16 0)
      (List.replicate 16 0) scan4x4diag 3 true 0 exDst2 2 2).1.getD
      (scan4x4diag.getD 3 0) 0 = 0 ∧
    (rdoFinalize exResi2 scan4x4diag exDst2 2 2).1.getD (scan4x4diag.getD 1 0) 0 ≠ 0 := by
  have h := C3_best_last_idx exResi2 (List.replicate 16 2) (List.replicate 16 0)
    (List.replicate 16 0) (List.replicate 16 0) exDst2 scan4x4diag 3 true 0 2 2 16
    (by decide) (by decide) (by decide) (by decide) (by decide) (by decide) (by decide)
  exact ⟨h.1 3 (by decide) (by decide), h.2.1 (by decide) (by decide)⟩

/-- C5: with sign-data hiding disabled, every non-zero output level produced
by `transformNxN` carries the sign of the corresponding pre-quantization DCT
coefficient — on the scalar path (first conjunct: the quantizer clamps a
signed level whose sign is re-applied from the input) and on the RDOQ path
(second conjunct: the final recount applies the DCT sign to the non-negative
levels of the cost search, and with the PPS flag off the RD sign-hiding pass
is skipped). -/
theorem C5_sign_preservation :
    (∀ (qcs resiDct : List Int) (add : Int) (qbits : Nat) (scan : List Nat) (numCG : Nat),
      qcs.length = resiDct.length →
      (∀ qc ∈ qcs, 0 ≤ qc) → 0 ≤ add → add < 2 ^ qbits →
      signOk resiDct (transformNxN_scalarPath qcs add qbits false scan numCG resiDct).1) ∧
    (∀ (resiDct deltaU rateIncUp rateIncDown sigRateDelta dstCoeff : List Int)
      (scan : List Nat) (rdFactor : Int) (cgLast B L numCoeff : Nat),
      scan.Perm (List.range numCoeff) →
      B ≤ L + 1 → L < numCoeff → dstCoeff.length = numCoeff →
      (∀ pos, pos < numCoeff → L < pos → dstCoeff.getD (scan.getD pos 0) 0 = 0) →
      (∀ p, p < numCoeff → 0 ≤ dstCoeff.getD p 0) →
      (∀ p, p < numCoeff → resiDct.getD p 0 = 0 → dstCoeff.getD p 0 = 0) →
      signOk resiDct (rdoQuantTail resiDct deltaU rateIncUp rateIncDown sigRateDelta scan
        rdFactor false cgLast dstCoeff B L).1) := by
  constructor
  · intro qcs resiDct add qbits scan numCG hql hq hadd hadd2
    unfold transformNxN_scalarPath
    dsimp only
    rw [if_neg (by simp)]
    exact quantBlock_signOk qcs add qbits resiDct hql hq hadd hadd2
  · intro resiDct deltaU rateIncUp rateIncDown sigRateDelta dstCoeff scan rdFactor
      cgLast B L numCoeff hscan hB hL hlen hzero0 hpos hdz
    have hzero : ∀ pos, L < pos → pos < numCoeff → dstCoeff.getD (scan.getD pos 0) 0 = 0 :=
      fun pos h1 h2 => hzero0 pos h2 h1
    have hpos' : ∀ p, 0 ≤ dstCoeff.getD p 0 := by
      intro p
      by_cases hp : p < numCoeff
      · exact hpos p hp
      · rw [List.getD_eq_default _ _ (by omega)]
    have hdz' : ∀ p, resiDct.getD p 0 = 0 → dstCoeff.getD p 0 = 0 := by
      intro p hz
      by_cases hp : p < numCoeff
      · exact hdz p hp hz
      · rw [List.getD_eq_default _ _ (by omega)]
    unfold rdoQuantTail
    dsimp only
    rw [if_neg (by simp)]
    exact rdoFinalize_signOk resiDct scan dstCoeff B L numCoeff hscan hB hL hlen hzero
      hpos' hdz'

theorem C5_sign_preservation_witness :
    signOk exResi1 (transformNxN_scalarPath (List.replicate 16 16384) 21888 16 false
      scan4x4diag 1 exResi1).1 ∧
    signOk exResi2 (rdoQuantTail exResi2 (List.replicate 16 2) (List.replicate 16 0)
      (List.replicate 16 0) (List.replicate 16 0) scan4x4diag 3 false 0 exDst2 2 2).1 :=
  ⟨C5_sign_preservation.1 (List.replicate 16 16384) exResi1 21888 16 scan4x4diag 1
      (by decide) (by decide) (by decide) (by decide),
   C5_sign_preservation.2 exResi2 (List.replicate 16 2) (List.replicate 16 0)
      (List.replicate 16 0) (List.replicate 16 0) exDst2 scan4x4diag 3 0 2 2 16
      (by decide) (by decide) (by decide) (by decide) (by decide) (by decide) (by decide)⟩

/-- C2 counterexample: the claim asserts that `transformNxN` returns 0 on the
transquant-bypass path.  The bypass path returns
`primitives.cvt16to32_cnt[...](coeff, residual, resiStride)` (quant.cpp line
330) — the count of non-zero residual samples, as the `_cnt` kernel name and
the §3 `numSig` invariant require.  A bypass block with one non-zero residual
sample yields 1, not 0. -/
theorem C2_counterexample :
    (cvt16to32_cnt 4 4 (fun p => if p = 0 then (5 : Int) else 0)).2 = 1 ∧
    (cvt16to32_cnt 4 4 (fun p => if p = 0 then (5 : Int) else 0)).2 ≠ 0 := by
  constructor <;> decide

/-- C2 (amended): on the transquant-bypass path the residual samples are
copied verbatim into the output level array (first conjunct: the level at
block position `k * trSize + j` is the residual sample at row `k`, column `j`
of the strided input), and the returned value is the number of non-zero
entries of the output level array — not 0. -/
theorem C2_bypass_copy_count (trSize stride : Nat) (residual : Nat → Int) :
    (∀ k j, j < trSize →
      (cvt16to32_cnt trSize stride residual).1 (k * trSize + j) =
        residual (k * stride + j)) ∧
    (cvt16to32_cnt trSize stride residual).2 =
      countNZ ((List.range (trSize * trSize)).map
        (cvt16to32_cnt trSize stride residual).1) := by
  constructor
  · intro k j hj
    obtain ⟨hd, hm⟩ := grid_div_mod k j trSize hj
    show residual ((k * trSize + j) / trSize * stride + (k * trSize + j) % trSize) = _
    rw [hd, hm]
  · unfold countNZ
    rw [List.countP_map]
    rfl

theorem C2_bypass_copy_count_witness :
    (cvt16to32_cnt 4 7 (fun p => if p = 17 then (-9 : Int) else 0)).1 (2 * 4 + 3) =
      (fun p => if p = 17 then (-9 : Int) else 0) (2 * 7 + 3) ∧
    (cvt16to32_cnt 4 7 (fun p => if p = 17 then (-9 : Int) else 0)).2 =
      countNZ ((List.range (4 * 4)).map
        (cvt16to32_cnt 4 7 (fun p => if p = 17 then (-9 : Int) else 0)).1) :=
  ⟨(C2_bypass_copy_count 4 7 (fun p => if p = 17 then (-9 : Int) else 0)).1 2 3 (by decide),
   (C2_bypass_copy_count 4 7 (fun p => if p = 17 then (-9 : Int) else 0)).2⟩

/-- C4: with transquant bypass set, running the forward path
(`cvt16to32_cnt`: verbatim copy of the residual into the levels) and then the
inverse path (`invtransformNxN` bypass branch: copy back through an `int16_t`
cast) reproduces every residual sample exactly — the cast is the identity on
the `int16_t`-ranged residual. -/
theorem C4_bypass_roundtrip (trSize stride : Nat) (residual : Nat → Int)
    (hr : ∀ p, -32768 ≤ residual p ∧ residual p ≤ 32767) :
    ∀ k j, j < trSize →
      invtransformNxN_bypass trSize (cvt16to32_cnt trSize stride residual).1 k j =
        residual (k * stride + j) := by
  intro k j hj
  obtain ⟨hd, hm⟩ := grid_div_mod k j trSize hj
  show toInt16 (residual ((k * trSize + j) / trSize * stride + (k * trSize + j) % trSize)) = _
  rw [hd, hm]
  exact toInt16_of_range _ (hr _).1 (hr _).2

theorem C4_bypass_roundtrip_witness :
    invtransformNxN_bypass 4 (cvt16to32_cnt 4 5 (fun _ => (-5 : Int))).1 2 3 =
      (fun _ => (-5 : Int)) (2 * 5 + 3) :=
  C4_bypass_roundtrip 4 5 (fun _ => (-5 : Int))
    (by intro p; show (-32768 : Int) ≤ -5 ∧ (-5 : Int) ≤ 32767; decide) 2 3 (by decide)

/-- C6: on a block whose only non-zero coefficient is the DC position (and
which is not a DST block), `invtransformNxN` takes the fast path, filling
every residual sample with `dc_val = (((coef[0]*64 + 64) >> 7) * 64 + 2048)
>> 12` (first conjunct), and this equals the full two-pass inverse transform
exactly, for any transform matrix whose first row is the constant 64 — as
every HEVC inverse-DCT matrix's is (second conjunct). -/
theorem C6_dc_fast_path (M : Nat → Nat → Int) (n : Nat) (coef : Nat → Nat → Int) (c : Int)
    (hn : 0 < n) (hM : ∀ i, i < n → M 0 i = 64)
    (hc0 : coef 0 0 = c) (hcnz : c ≠ 0)
    (hcz : ∀ k, k < n → ∀ j, j < n → ¬(k = 0 ∧ j = 0) → coef k j = 0)
    (hcr : -32768 ≤ c ∧ c ≤ 32767) :
    (∀ k j, invtransformResidual M n 1 coef false k j = dcVal c) ∧
    (∀ j i, j < n → i < n →
      invtransformResidual M n 1 coef false j i = idct2d M n coef j i) := by
  have hcond : (1 : Nat) = 1 ∧ coef 0 0 ≠ 0 ∧ ¬(false : Bool) = true :=
    ⟨rfl, by rw [hc0]; exact hcnz, by simp⟩
  constructor
  · intro k j
    unfold invtransformResidual
    rw [if_pos hcond]
    show dcVal (coef 0 0) = dcVal c
    rw [hc0]
  · intro j i hj hi
    unfold invtransformResidual
    rw [if_pos hcond]
    show dcVal (coef 0 0) = idct2d M n coef j i
    rw [hc0]
    exact (idct2d_dc M n c coef hn hM hc0 (fun k j hk hj => hcz k hk j hj) hcr j i hj hi).symm

theorem C6_dc_fast_path_witness :
    invtransformResidual g_t4 4 1 (fun k j => if k = 0 ∧ j = 0 then (100 : Int) else 0)
      false 2 3 = dcVal 100 ∧
    invtransformResidual g_t4 4 1 (fun k j => if k = 0 ∧ j = 0 then (100 : Int) else 0)
      false 1 2 =
      idct2d g_t4 4 (fun k j => if k = 0 ∧ j = 0 then (100 : Int) else 0) 1 2 := by
  have h := C6_dc_fast_path g_t4 4 (fun k j => if k = 0 ∧ j = 0 then (100 : Int) else 0) 100
    (by decide) (by decide) (by decide) (by decide) (by decide) (by decide)
  exact ⟨h.1 2 3, h.2 1 2 (by decide) (by decide)⟩

/-- C7 counterexample: the claim asserts that DC intra prediction averages the
`2N` top and `2N` left reference samples.  `intra_pred_dc_c_new` sums only
`width` top and `width` left samples (lines 50-54: both loops run `i <
width`).  With `N = 4`, top and left both `[0,0,0,0,80,80,80,80]`, the code's
DC value is `(4 + 0 + 0) / 8 = 0` while the spec's 2N+2N rounded average is
`(8 + 320 + 320) / 16 = 40`. -/
theorem C7_counterexample :
    intra_pred_dc_c_new 4
      [0, 0, 0, 0, 0, 80, 80, 80, 80, 0, 0, 0, 0, 80, 80, 80, 80] false 2 2 = 0 ∧
    intra_dc_val_claimed 4
      [0, 0, 0, 0, 0, 80, 80, 80, 80, 0, 0, 0, 0, 80, 80, 80, 80] = 40 ∧
    intra_pred_dc_c_new 4
      [0, 0, 0, 0, 0, 80, 80, 80, 80, 0, 0, 0, 0, 80, 80, 80, 80] false 2 2 ≠
      intra_dc_val_claimed 4
        [0, 0, 0, 0, 0, 80, 80, 80, 80, 0, 0, 0, 0, 80, 80, 80, 80] := by
  refine ⟨?_, ?_, ?_⟩ <;> decide

/-- C7 (amended): for mode-1 (DC) intra prediction without the edge filter,
every predicted sample is the same DC value, and that value is the rounded
average of the `N` top and `N` left reference samples only: `(N + Σ top[0..N)
+ Σ left[0..N)) / 2N` — not of `2N` top and `2N` left samples. -/
theorem C7_intra_dc_average (width : Nat) (srcPix : List Nat) :
    (∀ k l, intra_pred_dc_c_new width srcPix false k l = intra_dc_val width srcPix) ∧
    intra_dc_val width srcPix =
      (width + (Finset.range width).sum (fun i => srcPix.getD (1 + i) 0) +
        (Finset.range width).sum (fun i => srcPix.getD (2 * width + 1 + i) 0)) /
        (width + width) := by
  constructor
  · intro k l
    rfl
  · exact intra_dc_val_eq width srcPix

/-- C8: `setQPforQuant` for a chroma component first clips `qpy +
chromaQPOffset` to `[-QP_BD_OFFSET, 57]`; a clipped QP below 30 passes
through unchanged (first conjunct), a clipped QP of at least 30 is mapped
through `g_chromaScale` for 4:2:0 (second conjunct) and clipped to at most 51
for the other chroma formats (third conjunct); the bit-depth offset is then
added in every case. -/
theorem C8_chroma_qp (qpy chromaQPOffset : Int) (chFmt : Nat) :
    (Clip3 (-QP_BD_OFFSET) 57 (qpy + chromaQPOffset) < 30 →
      setQPforQuantChroma qpy chromaQPOffset chFmt =
        Clip3 (-QP_BD_OFFSET) 57 (qpy + chromaQPOffset) + QP_BD_OFFSET) ∧
    (30 ≤ Clip3 (-QP_BD_OFFSET) 57 (qpy + chromaQPOffset) → chFmt = X265_CSP_I420 →
      setQPforQuantChroma qpy chromaQPOffset chFmt =
        (g_chromaScale.getD (Clip3 (-QP_BD_OFFSET) 57 (qpy + chromaQPOffset)).toNat 0 : Int) +
          QP_BD_OFFSET) ∧
    (30 ≤ Clip3 (-QP_BD_OFFSET) 57 (qpy + chromaQPOffset) → chFmt ≠ X265_CSP_I420 →
      setQPforQuantChroma qpy chromaQPOffset chFmt =
        min (Clip3 (-QP_BD_OFFSET) 57 (qpy + chromaQPOffset)) 51 + QP_BD_OFFSET) := by
  unfold setQPforQuantChroma
  dsimp only
  refine ⟨fun h1 => ?_, fun h1 h2 => ?_, fun h1 h2 => ?_⟩
  · rw [if_neg (by omega)]
  · rw [if_pos h1, if_pos h2]
  · rw [if_pos h1, if_neg h2]

theorem C8_chroma_qp_witness :
    setQPforQuantChroma 25 0 1 = Clip3 (-QP_BD_OFFSET) 57 (25 + 0) + QP_BD_OFFSET ∧
    setQPforQuantChroma 35 0 1 =
      (g_chromaScale.getD (Clip3 (-QP_BD_OFFSET) 57 (35 + 0)).toNat 0 : Int) +
        QP_BD_OFFSET ∧
    setQPforQuantChroma 54 0 3 = min (Clip3 (-QP_BD_OFFSET) 57 (54 + 0)) 51 + QP_BD_OFFSET :=
  ⟨(C8_chroma_qp 25 0 1).1 (by decide),
   (C8_chroma_qp 35 0 1).2.1 (by decide) (by decide),
   (C8_chroma_qp 54 0 3).2.2 (by decide) (by decide)⟩

end X265
